import Mathlib

/-!
Verification of the tfdocs extension's specifiable core against its source.

The development shallowly embeds the version-constraint resolver, the
lexical context resolver (brace-depth scanning over line-oriented
documents), the lock-file parser and the latest-version cache from the
TypeScript sources.  Strings are modelled as `String`/`List Char`; the
ambient configuration value `useConstraint` is passed as an explicit
`String` parameter; the network fetch inside `getLatestProviderVersion`
is modelled as an explicit input (the latest version computed from the
response, or `none` on any failure).  JavaScript regular expressions are
translated into deterministic scanners that implement the leftmost-match
semantics of the concrete patterns appearing in the source.
-/

namespace TfDocs

/-! ### Character classes used by the source's regular expressions -/

/-- The character class `[>=<~]` of the constraint-operator prefix. -/
def isOpChar (c : Char) : Bool :=
  c == '>' || c == '=' || c == '<' || c == '~'

/-- The character class `[a-zA-Z0-9.-]` of a prerelease tag in the
constraint-extraction pattern. -/
def isPreChar (c : Char) : Bool :=
  c.isAlphanum || c == '.' || c == '-'

/-- Numeric value of a (non-empty) digit run, as extracted by `parseInt`. -/
def natOfDigits (ds : List Char) : Nat :=
  ds.foldl (fun n c => n * 10 + (c.toNat - '0'.toNat)) 0

/-! ### Semantic versions (`parseSemanticVersion`, `compareVersions`) -/

/-- The record built by `parseSemanticVersion` in the source. -/
structure SemanticVersion where
  major : Nat
  minor : Nat
  patch : Nat
  prerelease : Option String
  original : String
deriving DecidableEq

/-- `parseSemanticVersion`: match of `^(\d+)\.(\d+)\.(\d+)(?:-(.+))?$`
with the three digit runs parsed numerically and the optional prerelease
tag kept verbatim.  (`parseInt` is modelled exactly; the source inputs
relevant here are small.  The line-terminator quirks of JavaScript `.`
and `$` cannot arise on the inputs this function receives, which come
from the constraint-extraction pattern and contain no line breaks.) -/
def parseSemanticVersion (version : String) : Option SemanticVersion :=
  let cs := version.data
  let d1 := cs.takeWhile Char.isDigit
  let r1 := cs.dropWhile Char.isDigit
  if d1.isEmpty then none else
  match r1 with
  | '.' :: r2 =>
    let d2 := r2.takeWhile Char.isDigit
    let r3 := r2.dropWhile Char.isDigit
    if d2.isEmpty then none else
    match r3 with
    | '.' :: r4 =>
      let d3 := r4.takeWhile Char.isDigit
      let r5 := r4.dropWhile Char.isDigit
      if d3.isEmpty then none else
      match r5 with
      | [] => some ⟨natOfDigits d1, natOfDigits d2, natOfDigits d3, none, version⟩
      | '-' :: rest =>
        if rest.isEmpty then none
        else some ⟨natOfDigits d1, natOfDigits d2, natOfDigits d3, some rest.asString, version⟩
      | _ => none
    | _ => none
  | _ => none

/-- JavaScript truthiness of the optional `prerelease` field: absent and
empty strings are falsy. -/
def isTruthyPre (p : Option String) : Bool :=
  match p with
  | none => false
  | some s => !(s == "")

/-- Lexicographic comparison of character lists (code-unit order). -/
def lexCmp : List Char → List Char → Ordering
  | [], [] => .eq
  | [], _ :: _ => .lt
  | _ :: _, [] => .gt
  | a :: as, b :: bs => if a < b then .lt else if b < a then .gt else lexCmp as bs

/-- `String.prototype.localeCompare` as used on prerelease tags,
modelled as plain lexicographic string comparison (the spec's reading;
the tags produced by the extraction pattern are ASCII). -/
def localeCompareInt (x y : String) : Int :=
  match lexCmp x.data y.data with
  | .lt => -1
  | .eq => 0
  | .gt => 1

/-- `compareVersions`: major, minor, patch numerically (as signed
differences), then prerelease versions sort below non-prerelease, and
two prereleases compare via `localeCompare`. -/
def compareVersions (a b : SemanticVersion) : Int :=
  if a.major ≠ b.major then (a.major : Int) - (b.major : Int)
  else if a.minor ≠ b.minor then (a.minor : Int) - (b.minor : Int)
  else if a.patch ≠ b.patch then (a.patch : Int) - (b.patch : Int)
  else if isTruthyPre a.prerelease ∧ ¬ isTruthyPre b.prerelease then -1
  else if ¬ isTruthyPre a.prerelease ∧ isTruthyPre b.prerelease then 1
  else if isTruthyPre a.prerelease ∧ isTruthyPre b.prerelease then
    localeCompareInt (a.prerelease.getD "") (b.prerelease.getD "")
  else 0

/-! ### The sort `parsedVersions.sort((a, b) => compareVersions(b, a))`

`Array.prototype.sort` is stable (ES2019) and, for the consistent
comparator above, produces the unique stable descending arrangement.
It is modelled by stable insertion sort: a new (later) element is
placed after every existing element it does not strictly exceed. -/

def sortedInsertDesc (x : SemanticVersion) : List SemanticVersion → List SemanticVersion
  | [] => [x]
  | y :: ys => if 0 < compareVersions x y then x :: y :: ys else y :: sortedInsertDesc x ys

/-- Descending stable sort by `compareVersions`. -/
def sortDescJS (l : List SemanticVersion) : List SemanticVersion :=
  l.foldl (fun acc x => sortedInsertDesc x acc) []

/-! ### `parseConstraintVersions` -/

/-- `constraints.split(',')`. -/
def splitOnComma : List Char → List (List Char)
  | [] => [[]]
  | c :: t =>
    if c = ',' then [] :: splitOnComma t
    else
      match splitOnComma t with
      | [] => [[c]]
      | h :: r => (c :: h) :: r

/-- `String.prototype.trim` on a clause. -/
def trimChars (l : List Char) : List Char :=
  ((l.dropWhile Char.isWhitespace).reverse.dropWhile Char.isWhitespace).reverse

/-- One attempt of `[>=<~]*\s*(\d+\.\d+\.\d+(?:-[a-zA-Z0-9.-]+)?)` at the
head of the input; returns the captured version literal.  The operator
prefix and whitespace are consumed greedily (the classes are disjoint
from digits, so no backtracking can succeed where this fails). -/
def tryVersionAt (l : List Char) : Option (List Char) :=
  let l1 := l.dropWhile isOpChar
  let l2 := l1.dropWhile Char.isWhitespace
  let d1 := l2.takeWhile Char.isDigit
  let r1 := l2.dropWhile Char.isDigit
  if d1.isEmpty then none else
  match r1 with
  | '.' :: r2 =>
    let d2 := r2.takeWhile Char.isDigit
    let r3 := r2.dropWhile Char.isDigit
    if d2.isEmpty then none else
    match r3 with
    | '.' :: r4 =>
      let d3 := r4.takeWhile Char.isDigit
      let r5 := r4.dropWhile Char.isDigit
      if d3.isEmpty then none else
      match r5 with
      | '-' :: rest =>
        let pr := rest.takeWhile isPreChar
        if pr.isEmpty then some (d1 ++ '.' :: d2 ++ '.' :: d3)
        else some (d1 ++ '.' :: d2 ++ '.' :: d3 ++ '-' :: pr)
      | _ => some (d1 ++ '.' :: d2 ++ '.' :: d3)
    | _ => none
  | _ => none

/-- Leftmost match of the version-extraction pattern (the `match` call
on each trimmed clause). -/
def scanForVersion : List Char → Option (List Char)
  | [] => none
  | c :: t =>
    match tryVersionAt (c :: t) with
    | some r => some r
    | none => scanForVersion t

/-- `parseConstraintVersions`: split on commas, trim, extract the first
embedded version of each clause, and push it unless already present. -/
def parseConstraintVersions (constraints : String) : List String :=
  let parts := (splitOnComma constraints.data).map trimChars
  parts.foldl (fun versions part =>
    match scanForVersion part with
    | some v => if v.asString ∈ versions then versions else versions ++ [v.asString]
    | none => versions) []

/-! ### `resolveVersionWithConstraint`

The ambient configuration value `useConstraint` is passed explicitly;
`constraints?: string` is an `Option String` whose empty string is falsy
for the `if (!constraints)` test. -/

def resolveVersionWithConstraint (useConstraint : String) (lockFileVersion : String)
    (constraints : Option String) : String :=
  match constraints with
  | none => lockFileVersion
  | some c =>
    if c = "" then lockFileVersion
    else if useConstraint = "high" then lockFileVersion
    else
      match parseConstraintVersions c with
      | [] => lockFileVersion
      | [v] => v
      | v1 :: v2 :: rest =>
        let parsedVersions := (v1 :: v2 :: rest).filterMap parseSemanticVersion
        match parsedVersions with
        | [] => lockFileVersion
        | _ :: _ =>
          let sorted := sortDescJS parsedVersions
          if useConstraint = "low" then
            ((sorted.getLast?).map SemanticVersion.original).getD lockFileVersion
          else if useConstraint = "middle" then
            ((sorted.get? (parsedVersions.length / 2)).map SemanticVersion.original).getD lockFileVersion
          else lockFileVersion

/-! ### Specification-side ordering on semantic versions -/

/-- Prerelease rank described by the spec: a version carrying a
(truthy) prerelease tag is below one without; two prerelease tags
compare lexicographically. -/
def preLt (pa pb : Option String) : Prop :=
  (isTruthyPre pa = true ∧ isTruthyPre pb = false) ∨
  (isTruthyPre pa = true ∧ isTruthyPre pb = true ∧
    lexCmp (pa.getD "").data (pb.getD "").data = .lt)

/-- Prerelease equivalence: both absent/empty, or equal tags. -/
def preEquiv (pa pb : Option String) : Prop :=
  (isTruthyPre pa = false ∧ isTruthyPre pb = false) ∨
  (isTruthyPre pa = true ∧ isTruthyPre pb = true ∧ pa.getD "" = pb.getD "")

/-- The strict order the spec describes: major, then minor, then patch
numerically ascending, and at equal triples the prerelease rank. -/
def specLt (a b : SemanticVersion) : Prop :=
  a.major < b.major ∨ (a.major = b.major ∧
    (a.minor < b.minor ∨ (a.minor = b.minor ∧
      (a.patch < b.patch ∨ (a.patch = b.patch ∧ preLt a.prerelease b.prerelease)))))

/-- Spec-side equivalence under the comparison. -/
def specEquiv (a b : SemanticVersion) : Prop :=
  a.major = b.major ∧ a.minor = b.minor ∧ a.patch = b.patch ∧
    preEquiv a.prerelease b.prerelease

theorem lexCmp_self (l : List Char) : lexCmp l l = .eq := by
  induction l with
  | nil => rfl
  | cons a t ih => simp [lexCmp, lt_irrefl, ih]

theorem lexCmp_eq_iff {x y : List Char} : lexCmp x y = .eq ↔ x = y := by
  induction x generalizing y with
  | nil => cases y <;> simp [lexCmp]
  | cons a t ih =>
    cases y with
    | nil => simp [lexCmp]
    | cons b u =>
      rcases lt_trichotomy a b with hab | hab | hab
      · simp only [lexCmp, if_pos hab]
        constructor
        · intro h
          exact absurd h (by decide)
        · intro h
          injection h with h1 h2
          exact absurd h1 (ne_of_lt hab)
      · subst hab
        simp [lexCmp, lt_irrefl, ih]
      · simp only [lexCmp, if_neg (lt_asymm hab), if_pos hab]
        constructor
        · intro h
          exact absurd h (by decide)
        · intro h
          injection h with h1 h2
          exact absurd h1.symm (ne_of_lt hab)

theorem lexCmp_lt_trans {x y z : List Char} (h1 : lexCmp x y = .lt) (h2 : lexCmp y z = .lt) :
    lexCmp x z = .lt := by
  induction x generalizing y z with
  | nil =>
    cases y with
    | nil => exact absurd h1 (by simp [lexCmp])
    | cons b u =>
      cases z with
      | nil => exact absurd h2 (by simp [lexCmp])
      | cons c v => simp [lexCmp]
  | cons a t ih =>
    cases y with
    | nil => exact absurd h1 (by simp [lexCmp])
    | cons b u =>
      cases z with
      | nil => exact absurd h2 (by simp [lexCmp])
      | cons c v =>
        rcases lt_trichotomy b c with hbc | hbc | hbc
        · rcases lt_trichotomy a b with hab | hab | hab
          · simp [lexCmp, lt_trans hab hbc]
          · subst hab
            simp [lexCmp, hbc]
          · simp only [lexCmp, if_neg (lt_asymm hab), if_pos hab] at h1
            exact absurd h1 (by decide)
        · subst hbc
          simp only [lexCmp, lt_irrefl, if_false] at h2
          rcases lt_trichotomy a b with hab | hab | hab
          · simp [lexCmp, hab]
          · subst hab
            simp only [lexCmp, lt_irrefl, if_false] at h1 ⊢
            exact ih h1 h2
          · simp only [lexCmp, if_neg (lt_asymm hab), if_pos hab] at h1
            exact absurd h1 (by decide)
        · simp only [lexCmp, if_neg (lt_asymm hbc), if_pos hbc] at h2
          exact absurd h2 (by decide)

theorem lexCmp_trichotomy (x y : List Char) :
    lexCmp x y = .lt ∨ lexCmp x y = .eq ∨ lexCmp y x = .lt := by
  induction x generalizing y with
  | nil => cases y <;> simp [lexCmp]
  | cons a t ih =>
    cases y with
    | nil => simp [lexCmp]
    | cons b u =>
      rcases lt_trichotomy a b with hab | hab | hab
      · simp [lexCmp, hab]
      · subst hab
        simpa [lexCmp, lt_irrefl] using ih u
      · simp [lexCmp, hab, lt_asymm hab]

/-- Sign characterization: `compareVersions a b` is negative exactly
when `a` is below `b` in the spec's order. -/
theorem compareVersions_lt_iff (a b : SemanticVersion) :
    compareVersions a b < 0 ↔ specLt a b := by
  unfold compareVersions specLt
  by_cases h1 : a.major = b.major
  · by_cases h2 : a.minor = b.minor
    · by_cases h3 : a.patch = b.patch
      · simp only [h1, h2, h3, ne_eq, not_true_eq_false, if_false, lt_irrefl, false_or,
          true_and]
        unfold preLt
        by_cases t1 : isTruthyPre a.prerelease <;> by_cases t2 : isTruthyPre b.prerelease
        · simp only [t1, t2, true_and, not_true_eq_false, false_and, and_false, if_false,
            and_true, if_true, Bool.true_eq_false, false_or, false_and, or_false]
          unfold localeCompareInt
          rcases hl : lexCmp (a.prerelease.getD "").data (b.prerelease.getD "").data <;>
            simp [hl]
        · simp [t1, t2]
        · simp [t1, t2]
        · simp [t1, t2]
      · simp [h1, h2, h3, lt_irrefl]
    · simp [h1, h2]
  · simp [h1]

/-- Sign characterization: `compareVersions a b` is zero exactly when
`a` and `b` are equivalent under the spec's comparison. -/
theorem compareVersions_eq_zero_iff (a b : SemanticVersion) :
    compareVersions a b = 0 ↔ specEquiv a b := by
  unfold compareVersions specEquiv
  by_cases h1 : a.major = b.major
  · by_cases h2 : a.minor = b.minor
    · by_cases h3 : a.patch = b.patch
      · simp only [h1, h2, h3, ne_eq, not_true_eq_false, if_false, true_and]
        unfold preEquiv
        by_cases t1 : isTruthyPre a.prerelease <;> by_cases t2 : isTruthyPre b.prerelease
        · simp only [t1, t2, true_and, not_true_eq_false, false_and, and_false, if_false,
            and_true, if_true, Bool.true_eq_false, false_or, or_false]
          unfold localeCompareInt
          rcases hl : lexCmp (a.prerelease.getD "").data (b.prerelease.getD "").data
          · simp only [hl]
            constructor
            · intro h
              exact absurd h (by decide)
            · intro he
              rw [he, lexCmp_self] at hl
              cases hl
          · simp only [hl]
            rw [lexCmp_eq_iff] at hl
            simp [String.ext hl]
          · simp only [hl]
            constructor
            · intro h
              exact absurd h (by decide)
            · intro he
              rw [he, lexCmp_self] at hl
              cases hl
        · simp [t1, t2]
        · simp [t1, t2]
        · simp [t1, t2]
      · simp [h1, h2, h3]
        omega
    · simp [h1, h2]
      omega
  · simp [h1]
    omega

theorem specLt_trichotomy (a b : SemanticVersion) :
    specLt a b ∨ specEquiv a b ∨ specLt b a := by
  unfold specLt specEquiv preLt preEquiv
  rcases Nat.lt_trichotomy a.major b.major with h | h | h
  · exact Or.inl (Or.inl h)
  · rcases Nat.lt_trichotomy a.minor b.minor with h' | h' | h'
    · exact Or.inl (Or.inr ⟨h, Or.inl h'⟩)
    · rcases Nat.lt_trichotomy a.patch b.patch with h'' | h'' | h''
      · exact Or.inl (Or.inr ⟨h, Or.inr ⟨h', Or.inl h''⟩⟩)
      · cases t1 : isTruthyPre a.prerelease <;> cases t2 : isTruthyPre b.prerelease
        · exact Or.inr (Or.inl ⟨h, h', h'', Or.inl ⟨rfl, rfl⟩⟩)
        · exact Or.inr (Or.inr (Or.inr ⟨h.symm,
            Or.inr ⟨h'.symm, Or.inr ⟨h''.symm, Or.inl ⟨rfl, rfl⟩⟩⟩⟩))
        · exact Or.inl (Or.inr ⟨h, Or.inr ⟨h', Or.inr ⟨h'', Or.inl ⟨rfl, rfl⟩⟩⟩⟩)
        · rcases lexCmp_trichotomy (a.prerelease.getD "").data (b.prerelease.getD "").data with
            hl | hl | hl
          · exact Or.inl (Or.inr ⟨h, Or.inr ⟨h', Or.inr ⟨h'', Or.inr ⟨rfl, rfl, hl⟩⟩⟩⟩)
          · exact Or.inr (Or.inl ⟨h, h', h'',
              Or.inr ⟨rfl, rfl, String.ext (lexCmp_eq_iff.1 hl)⟩⟩)
          · exact Or.inr (Or.inr (Or.inr ⟨h.symm,
              Or.inr ⟨h'.symm, Or.inr ⟨h''.symm, Or.inr ⟨rfl, rfl, hl⟩⟩⟩⟩))
      · exact Or.inr (Or.inr (Or.inr ⟨h.symm, Or.inr ⟨h'.symm, Or.inl h''⟩⟩))
    · exact Or.inr (Or.inr (Or.inr ⟨h.symm, Or.inl h'⟩))
  · exact Or.inr (Or.inr (Or.inl h))

theorem specLt_trans {a b c : SemanticVersion} (h1 : specLt a b) (h2 : specLt b c) :
    specLt a c := by
  unfold specLt preLt at h1 h2 ⊢
  rcases h1 with h1 | ⟨hM1, h1⟩
  · rcases h2 with h2 | ⟨hM2, h2⟩
    · left
      omega
    · left
      omega
  · rcases h2 with h2 | ⟨hM2, h2⟩
    · left
      omega
    · right
      refine ⟨hM1.trans hM2, ?_⟩
      rcases h1 with h1 | ⟨hm1, h1⟩
      · rcases h2 with h2 | ⟨hm2, h2⟩
        · left
          omega
        · left
          omega
      · rcases h2 with h2 | ⟨hm2, h2⟩
        · left
          omega
        · right
          refine ⟨hm1.trans hm2, ?_⟩
          rcases h1 with h1 | ⟨hp1, h1⟩
          · rcases h2 with h2 | ⟨hp2, h2⟩
            · left
              omega
            · left
              omega
          · rcases h2 with h2 | ⟨hp2, h2⟩
            · left
              omega
            · right
              refine ⟨hp1.trans hp2, ?_⟩
              rcases h1 with ⟨t1, t2⟩ | ⟨t1, t2, hl1⟩
              · rcases h2 with ⟨t3, t4⟩ | ⟨t3, t4, hl2⟩
                · exact absurd t3 (by simp [t2])
                · exact absurd t3 (by simp [t2])
              · rcases h2 with ⟨t3, t4⟩ | ⟨t3, t4, hl2⟩
                · exact Or.inl ⟨t1, t4⟩
                · exact Or.inr ⟨t1, t4, lexCmp_lt_trans hl1 hl2⟩

theorem specLt_of_specLt_of_specEquiv {a b c : SemanticVersion}
    (h1 : specLt a b) (h2 : specEquiv b c) : specLt a c := by
  unfold specLt preLt at h1 ⊢
  unfold specEquiv preEquiv at h2
  obtain ⟨hM, hm, hp, hpre⟩ := h2
  rcases h1 with h1 | ⟨hM1, h1⟩
  · left
    omega
  · right
    refine ⟨by omega, ?_⟩
    rcases h1 with h1 | ⟨hm1, h1⟩
    · left
      omega
    · right
      refine ⟨by omega, ?_⟩
      rcases h1 with h1 | ⟨hp1, h1⟩
      · left
        omega
      · right
        refine ⟨by omega, ?_⟩
        rcases h1 with ⟨t1, t2⟩ | ⟨t1, t2, hl1⟩
        · rcases hpre with ⟨t3, t4⟩ | ⟨t3, t4, he⟩
          · exact Or.inl ⟨t1, t4⟩
          · exact absurd t3 (by simp [t2])
        · rcases hpre with ⟨t3, t4⟩ | ⟨t3, t4, he⟩
          · exact absurd t3 (by simp [t2])
          · exact Or.inr ⟨t1, t4, by rw [← he]; exact hl1⟩

theorem specLt_of_specEquiv_of_specLt {a b c : SemanticVersion}
    (h1 : specEquiv a b) (h2 : specLt b c) : specLt a c := by
  unfold specLt preLt at h2 ⊢
  unfold specEquiv preEquiv at h1
  obtain ⟨hM, hm, hp, hpre⟩ := h1
  rcases h2 with h2 | ⟨hM2, h2⟩
  · left
    omega
  · right
    refine ⟨by omega, ?_⟩
    rcases h2 with h2 | ⟨hm2, h2⟩
    · left
      omega
    · right
      refine ⟨by omega, ?_⟩
      rcases h2 with h2 | ⟨hp2, h2⟩
      · left
        omega
      · right
        refine ⟨by omega, ?_⟩
        rcases h2 with ⟨t1, t2⟩ | ⟨t1, t2, hl2⟩
        · rcases hpre with ⟨t3, t4⟩ | ⟨t3, t4, he⟩
          · exact absurd t1 (by simp [t4])
          · exact Or.inl ⟨t3, t2⟩
        · rcases hpre with ⟨t3, t4⟩ | ⟨t3, t4, he⟩
          · exact absurd t1 (by simp [t4])
          · exact Or.inr ⟨t3, t2, by rw [he]; exact hl2⟩

theorem compareVersions_nonpos_trans {a b c : SemanticVersion}
    (h1 : compareVersions a b ≤ 0) (h2 : compareVersions b c ≤ 0) :
    compareVersions a c ≤ 0 := by
  have h1' : specLt a b ∨ specEquiv a b := by
    rcases lt_or_eq_of_le h1 with h | h
    · exact Or.inl ((compareVersions_lt_iff a b).1 h)
    · exact Or.inr ((compareVersions_eq_zero_iff a b).1 h)
  have h2' : specLt b c ∨ specEquiv b c := by
    rcases lt_or_eq_of_le h2 with h | h
    · exact Or.inl ((compareVersions_lt_iff b c).1 h)
    · exact Or.inr ((compareVersions_eq_zero_iff b c).1 h)
  rcases h1' with h1' | h1' <;> rcases h2' with h2' | h2'
  · exact le_of_lt ((compareVersions_lt_iff a c).2 (specLt_trans h1' h2'))
  · exact le_of_lt ((compareVersions_lt_iff a c).2 (specLt_of_specLt_of_specEquiv h1' h2'))
  · exact le_of_lt ((compareVersions_lt_iff a c).2 (specLt_of_specEquiv_of_specLt h1' h2'))
  · refine le_of_eq ((compareVersions_eq_zero_iff a c).2 ?_)
    obtain ⟨hM1, hm1, hp1, hpre1⟩ := h1'
    obtain ⟨hM2, hm2, hp2, hpre2⟩ := h2'
    refine ⟨hM1.trans hM2, hm1.trans hm2, hp1.trans hp2, ?_⟩
    unfold preEquiv at hpre1 hpre2 ⊢
    rcases hpre1 with ⟨t1, t2⟩ | ⟨t1, t2, he1⟩ <;> rcases hpre2 with ⟨t3, t4⟩ | ⟨t3, t4, he2⟩
    · exact Or.inl ⟨t1, t4⟩
    · exact absurd t3 (by simp [t2])
    · exact absurd t3 (by simp [t2])
    · exact Or.inr ⟨t1, t4, he1.trans he2⟩

theorem compareVersions_pos_flip {a b : SemanticVersion} (h : 0 < compareVersions a b) :
    compareVersions b a < 0 := by
  rcases specLt_trichotomy a b with h' | h' | h'
  · exact absurd ((compareVersions_lt_iff a b).2 h') (by omega)
  · exact absurd ((compareVersions_eq_zero_iff a b).2 h') (by omega)
  · exact (compareVersions_lt_iff b a).2 h'

theorem compareVersions_self (a : SemanticVersion) : compareVersions a a = 0 := by
  refine (compareVersions_eq_zero_iff a a).2 ⟨rfl, rfl, rfl, ?_⟩
  unfold preEquiv
  by_cases t : isTruthyPre a.prerelease
  · exact Or.inr ⟨t, t, rfl⟩
  · exact Or.inl ⟨by simpa using t, by simpa using t⟩

/-! ### Structural facts about the sort -/

/-- The descending-sortedness produced by the comparator
`(a, b) => compareVersions(b, a)`. -/
def DescSorted (l : List SemanticVersion) : Prop :=
  List.Pairwise (fun a b => compareVersions b a ≤ 0) l

theorem mem_sortedInsertDesc {u x : SemanticVersion} {l : List SemanticVersion} :
    u ∈ sortedInsertDesc x l ↔ u = x ∨ u ∈ l := by
  induction l with
  | nil => simp [sortedInsertDesc]
  | cons y ys ih =>
    unfold sortedInsertDesc
    by_cases h : 0 < compareVersions x y
    · simp [h]
    · simp [h, ih]
      tauto

theorem sortedInsertDesc_perm (x : SemanticVersion) (l : List SemanticVersion) :
    (sortedInsertDesc x l).Perm (x :: l) := by
  induction l with
  | nil => exact List.Perm.refl _
  | cons y ys ih =>
    unfold sortedInsertDesc
    by_cases h : 0 < compareVersions x y
    · simp [h]
    · simp only [h, if_false]
      exact (ih.cons y).trans (List.Perm.swap x y ys)

theorem foldl_sortedInsertDesc_perm (l : List SemanticVersion) :
    ∀ acc : List SemanticVersion,
      (l.foldl (fun acc x => sortedInsertDesc x acc) acc).Perm (acc ++ l) := by
  induction l with
  | nil => intro acc; simp
  | cons x t ih =>
    intro acc
    have h1 := ih (sortedInsertDesc x acc)
    have h2 : (sortedInsertDesc x acc ++ t).Perm ((x :: acc) ++ t) :=
      (sortedInsertDesc_perm x acc).append_right t
    have h3 : ((x :: acc) ++ t).Perm (acc ++ x :: t) := List.perm_middle.symm
    simpa using (h1.trans h2).trans h3

theorem sortDescJS_perm (l : List SemanticVersion) : (sortDescJS l).Perm l := by
  simpa [sortDescJS] using foldl_sortedInsertDesc_perm l []

theorem descSorted_sortedInsertDesc (x : SemanticVersion) {l : List SemanticVersion}
    (h : DescSorted l) : DescSorted (sortedInsertDesc x l) := by
  induction l with
  | nil => simp [sortedInsertDesc, DescSorted]
  | cons y ys ih =>
    rw [DescSorted, List.pairwise_cons] at h
    obtain ⟨h1, h2⟩ := h
    unfold sortedInsertDesc
    by_cases hc : 0 < compareVersions x y
    · rw [if_pos hc, DescSorted, List.pairwise_cons]
      refine ⟨?_, List.pairwise_cons.2 ⟨h1, h2⟩⟩
      intro z hz
      rcases List.mem_cons.1 hz with rfl | hz
      · exact le_of_lt (compareVersions_pos_flip hc)
      · exact compareVersions_nonpos_trans (h1 z hz) (le_of_lt (compareVersions_pos_flip hc))
    · rw [if_neg hc, DescSorted, List.pairwise_cons]
      refine ⟨?_, ih h2⟩
      intro z hz
      rcases mem_sortedInsertDesc.1 hz with rfl | hz
      · exact not_lt.1 hc
      · exact h1 z hz

theorem descSorted_sortDescJS (l : List SemanticVersion) : DescSorted (sortDescJS l) := by
  have aux : ∀ (m acc : List SemanticVersion), DescSorted acc →
      DescSorted (m.foldl (fun acc x => sortedInsertDesc x acc) acc) := by
    intro m
    induction m with
    | nil => intro acc h; simpa using h
    | cons x t ih =>
      intro acc h
      exact ih _ (descSorted_sortedInsertDesc x h)
  exact aux l [] (List.Pairwise.nil)

/-- `parseSemanticVersion` stores the input string verbatim in the
`original` field. -/
theorem parseSemanticVersion_original {s : String} {u : SemanticVersion}
    (h : parseSemanticVersion s = some u) : u.original = s := by
  unfold parseSemanticVersion at h
  dsimp only at h
  repeat' split at h
  all_goals
    first
      | (obtain rfl := Option.some.inj h; rfl)
      | simp at h

/-! ### Claim C2: strategy `high` returns the locked version -/

/-- C2.  For every locked version string and every non-empty constraints
string, resolving under strategy `high` returns the locked version
unchanged: the constraints are ignored. -/
theorem C2_high_strategy_returns_locked (v c : String) (h : c ≠ "") :
    resolveVersionWithConstraint "high" v (some c) = v := by
  unfold resolveVersionWithConstraint
  simp [h]

/-- Witness for C2 at a concrete constraints string with two version
literals. -/
theorem C2_high_strategy_returns_locked_witness :
    (">= 1.6.0, >= 1.7.0" : String) ≠ "" ∧
      resolveVersionWithConstraint "high" "1.2.3" (some ">= 1.6.0, >= 1.7.0") = "1.2.3" :=
  ⟨by decide, C2_high_strategy_returns_locked "1.2.3" ">= 1.6.0, >= 1.7.0" (by decide)⟩

/-! ### Claim C6: shape of `parseConstraintVersions` -/

/-- First-seen-order deduplication, as the spec words it. -/
def dedupFirstSeen : List String → List String
  | [] => []
  | x :: t => x :: dedupFirstSeen (t.filter (fun y => y ≠ x))
termination_by l => l.length
decreasing_by
  simp only [List.length_cons]
  exact Nat.lt_succ_of_le (List.length_filter_le _ t)

/-- The spec's description of `parseConstraintExpression`: split on
commas, trim each clause, extract the first embedded version literal of
each clause (none for a clause without one), and deduplicate preserving
first-seen order. -/
def parseConstraintExpressionSpec (constraints : String) : List String :=
  dedupFirstSeen (((splitOnComma constraints.data).map trimChars).filterMap
    (fun cl => (scanForVersion cl).map List.asString))

theorem foldl_extract_eq_foldl_filterMap (parts : List (List Char)) (acc : List String) :
    parts.foldl (fun versions part =>
      match scanForVersion part with
      | some v => if v.asString ∈ versions then versions else versions ++ [v.asString]
      | none => versions) acc
    = (parts.filterMap (fun cl => (scanForVersion cl).map List.asString)).foldl
        (fun versions v => if v ∈ versions then versions else versions ++ [v]) acc := by
  induction parts generalizing acc with
  | nil => rfl
  | cons p t ih =>
    rcases hs : scanForVersion p with _ | v
    · simp only [List.foldl_cons, hs, List.filterMap_cons, Option.map_none']
      exact ih acc
    · simp only [List.foldl_cons, hs, List.filterMap_cons, Option.map_some']
      exact ih _

theorem foldl_pushNew_eq_dedupFirstSeen (L : List String) (acc : List String) :
    L.foldl (fun versions v => if v ∈ versions then versions else versions ++ [v]) acc
    = acc ++ dedupFirstSeen (L.filter (fun v => v ∉ acc)) := by
  induction L generalizing acc with
  | nil => simp [dedupFirstSeen]
  | cons x t ih =>
    by_cases hx : x ∈ acc
    · have hfx : (decide (x ∉ acc)) = false := by simp [hx]
      simp only [List.foldl_cons, if_pos hx, List.filter_cons, hfx, if_false]
      exact ih acc
    · have hfx : (decide (x ∉ acc)) = true := by simp [hx]
      simp only [List.foldl_cons, if_neg hx, List.filter_cons, hfx, if_true]
      rw [ih (acc ++ [x])]
      rw [dedupFirstSeen]
      have hfilters :
          t.filter (fun v => v ∉ acc ++ [x])
            = (t.filter (fun v => v ∉ acc)).filter (fun y => y ≠ x) := by
        rw [List.filter_filter]
        refine List.filter_congr ?_
        intro a _
        by_cases h1 : a = x <;> by_cases h2 : a ∈ acc <;> simp [h1, h2]
      rw [hfilters]
      simp

/-- C6.  `parseConstraintVersions` splits on commas, trims each clause,
extracts the first embedded `major.minor.patch[-prerelease]` literal
with the leading operator discarded, skips clauses without one, and
deduplicates in first-seen order; in particular it maps `"~>1.2.3"` to
`["1.2.3"]`. -/
theorem C6_parseConstraintVersions_spec :
    (∀ c : String, parseConstraintVersions c = parseConstraintExpressionSpec c) ∧
      parseConstraintVersions "~>1.2.3" = ["1.2.3"] := by
  constructor
  · intro c
    unfold parseConstraintVersions parseConstraintExpressionSpec
    rw [foldl_extract_eq_foldl_filterMap, foldl_pushNew_eq_dedupFirstSeen]
    simp
  · decide

/-! ### Claim C10: the resolver only ever answers the locked version or
an extracted constraint literal -/

/-- C10.  For every strategy, locked version and constraints string, the
string returned by `resolveVersionWithConstraint` is the locked version
itself or one of the version literals extracted from the constraints. -/
theorem C10_result_is_locked_or_extracted (strat v c : String) :
    resolveVersionWithConstraint strat v (some c) = v ∨
      resolveVersionWithConstraint strat v (some c) ∈ parseConstraintVersions c := by
  unfold resolveVersionWithConstraint
  dsimp only
  by_cases hc : c = ""
  · simp [hc]
  · rw [if_neg hc]
    by_cases hh : strat = "high"
    · simp [hh]
    · rw [if_neg hh]
      rcases hcv : parseConstraintVersions c with _ | ⟨v1, _ | ⟨v2, rest⟩⟩
      · simp
      · simp [hcv]
      · rcases hfm : (v1 :: v2 :: rest).filterMap parseSemanticVersion with _ | ⟨p, ps⟩
        · simp [hfm]
        · simp only [hfm]
          have hmem : ∀ u : SemanticVersion, u ∈ sortDescJS (p :: ps) →
              u.original ∈ v1 :: v2 :: rest := by
            intro u hu
            have hu' : u ∈ p :: ps := (sortDescJS_perm (p :: ps)).mem_iff.1 hu
            have hu'' : u ∈ (v1 :: v2 :: rest).filterMap parseSemanticVersion := by
              rw [hfm]; exact hu'
            obtain ⟨s, hs, hps⟩ := List.mem_filterMap.1 hu''
            have := parseSemanticVersion_original hps
            rw [this]
            exact hs
          by_cases hl : strat = "low"
          · rw [if_pos hl]
            right
            have hne : sortDescJS (p :: ps) ≠ [] := by
              intro h
              have := (sortDescJS_perm (p :: ps)).length_eq
              rw [h] at this
              simp at this
            rw [List.getLast?_eq_getLast _ hne]
            simp only [Option.map_some', Option.getD_some]
            exact hmem _ (List.getLast_mem hne)
          · rw [if_neg hl]
            by_cases hm : strat = "middle"
            · rw [if_pos hm]
              right
              have hlen : (p :: ps).length / 2 < (sortDescJS (p :: ps)).length := by
                rw [(sortDescJS_perm (p :: ps)).length_eq]
                exact Nat.div_lt_self (by simp) (by norm_num)
              rw [List.get?_eq_get hlen]
              simp only [Option.map_some', Option.getD_some]
              exact hmem _ (List.get_mem _ _ hlen)
            · rw [if_neg hm]
              left
              rfl

/-! ### Claim C3: strategies `low` and `middle` on multi-version
constraints -/

/-- C3.  When the constraints string yields at least two version
literals of which at least one parses, the resolver sorts the parsed
versions descending (newest first, stably); strategy `low` returns the
original string of the last element of that descending list and
strategy `middle` the one at index `floor(count / 2)`.  In particular
the two concrete examples of the spec hold. -/
theorem C3_low_middle_strategies :
    (∀ (v c v1 v2 : String) (rest : List String) (parsed : List SemanticVersion),
        c ≠ "" →
        parseConstraintVersions c = v1 :: v2 :: rest →
        parsed = (v1 :: v2 :: rest).filterMap parseSemanticVersion →
        parsed ≠ [] →
        DescSorted (sortDescJS parsed) ∧ (sortDescJS parsed).Perm parsed ∧
          resolveVersionWithConstraint "low" v (some c) =
            (((sortDescJS parsed).getLast?).map SemanticVersion.original).getD v ∧
          resolveVersionWithConstraint "middle" v (some c) =
            (((sortDescJS parsed).get? (parsed.length / 2)).map SemanticVersion.original).getD v) ∧
      resolveVersionWithConstraint "low" "1.2.3" (some ">= 1.6.0, >= 1.7.0") = "1.6.0" ∧
      resolveVersionWithConstraint "middle" "1.2.3" (some ">= 1.6.0, >= 1.7.0, >= 1.8.0") =
        "1.7.0" := by
  refine ⟨?_, by decide, by decide⟩
  intro v c v1 v2 rest parsed hc hcv hp hne
  refine ⟨descSorted_sortDescJS _, sortDescJS_perm _, ?_, ?_⟩
  · unfold resolveVersionWithConstraint
    dsimp only
    rw [if_neg hc, if_neg (by decide : ¬ ("low" : String) = "high")]
    simp only [hcv]
    rcases hfm : (v1 :: v2 :: rest).filterMap parseSemanticVersion with _ | ⟨p, ps⟩
    · rw [hp, hfm] at hne
      exact absurd rfl hne
    · rw [hp, hfm]
      simp
  · unfold resolveVersionWithConstraint
    dsimp only
    rw [if_neg hc, if_neg (by decide : ¬ ("middle" : String) = "high")]
    simp only [hcv]
    rcases hfm : (v1 :: v2 :: rest).filterMap parseSemanticVersion with _ | ⟨p, ps⟩
    · rw [hp, hfm] at hne
      exact absurd rfl hne
    · rw [hp, hfm]
      simp

/-- Witness for C3's general statement at the spec's first example. -/
theorem C3_low_middle_strategies_witness :
    resolveVersionWithConstraint "low" "1.2.3" (some ">= 1.6.0, >= 1.7.0") =
      (((sortDescJS ((["1.6.0", "1.7.0"] : List String).filterMap
          parseSemanticVersion)).getLast?).map SemanticVersion.original).getD "1.2.3" :=
  (C3_low_middle_strategies.1 "1.2.3" ">= 1.6.0, >= 1.7.0" "1.6.0" "1.7.0" [] _
    (by decide) (by decide) rfl (by decide)).2.2.1

/-! ### The lexical context resolver

Documents are modelled as lists of line strings (`document.lineAt`),
positions as line/character pairs.  `RESOURCE_REGEX` and
`VARIABLE_REGEX` are translated into deterministic scanners (for both,
greedy matching is forced: every character class involved is disjoint
from its follow set, so the regex engine never backtracks usefully). -/

/-- A cursor position (`vscode.Position`). -/
structure Pos where
  line : Nat
  character : Nat
deriving DecidableEq

/-- `document.lineAt(n).text`; the source never reads past
`document.lineCount`, all loops are guarded. -/
def lineAt (doc : List String) (n : Nat) : String :=
  doc.getD n ""

/-- The class `[a-zA-Z-]` (resource-type provider prefix). -/
def isResPrefixChar (c : Char) : Bool :=
  c.isAlpha || c == '-'

/-- The class `[a-z0-9_]` (resource-type suffix, local names, variable
names). -/
def isWordLowerChar (c : Char) : Bool :=
  (c.isLower || c.isDigit) || c == '_'

/-- Literal-prefix matcher; returns the remaining input. -/
def expectLit : List Char → List Char → Option (List Char)
  | [], l => some l
  | _ :: _, [] => none
  | c :: cs, x :: xs => if x = c then expectLit cs xs else none

/-- One attempt of
`(data|resource)\s+"([a-zA-Z-]+)_([a-z0-9_]+)"\s+"([a-z0-9_]+)"` at the
head of the input (`data` and `resource` cannot both match at one
position, so alternation order is irrelevant). -/
def tryResourceAt (l : List Char) : Bool :=
  match (expectLit "data".data l).orElse (fun _ => expectLit "resource".data l) with
  | none => false
  | some l1 =>
    match l1 with
    | [] => false
    | c :: t =>
      if !c.isWhitespace then false
      else
        match t.dropWhile Char.isWhitespace with
        | '"' :: t1 =>
          let pre := t1.takeWhile isResPrefixChar
          if pre.isEmpty then false
          else
            match t1.dropWhile isResPrefixChar with
            | '_' :: t2 =>
              let suf := t2.takeWhile isWordLowerChar
              if suf.isEmpty then false
              else
                match t2.dropWhile isWordLowerChar with
                | '"' :: t3 =>
                  match t3 with
                  | [] => false
                  | c2 :: t4 =>
                    if !c2.isWhitespace then false
                    else
                      match t4.dropWhile Char.isWhitespace with
                      | '"' :: t5 =>
                        let nm := t5.takeWhile isWordLowerChar
                        if nm.isEmpty then false
                        else
                          match t5.dropWhile isWordLowerChar with
                          | '"' :: _ => true
                          | _ => false
                      | _ => false
                | _ => false
            | _ => false
        | _ => false

/-- `RESOURCE_REGEX.exec(line) !== null`: leftmost-match existence. -/
def lineMatchesResource : List Char → Bool
  | [] => false
  | c :: t => tryResourceAt (c :: t) || lineMatchesResource t

/-- `VARIABLE_REGEX` match of `^\s*([a-z0-9_]+)\s*=\s*(.*)$`, returning
the captured identifier. -/
def variableRegexName (l : List Char) : Option (List Char) :=
  let l1 := l.dropWhile Char.isWhitespace
  let name := l1.takeWhile isWordLowerChar
  if name.isEmpty then none
  else
    match (l1.dropWhile isWordLowerChar).dropWhile Char.isWhitespace with
    | '=' :: _ => some name
    | _ => none

/-- `String.prototype.indexOf` for a substring. -/
def indexOfSubstr (l pat : List Char) : Option Nat :=
  if pat.isPrefixOf l then some 0
  else
    match l with
    | [] => none
    | _ :: t => (indexOfSubstr t pat).map (· + 1)

/-- `getVariableAtPosition`: the variable name when the cursor falls
within the identifier's span (both boundaries inclusive). -/
def getVariableAtPosition (line : String) (pos : Pos) : Option String :=
  match variableRegexName line.data with
  | none => none
  | some name =>
    match indexOfSubstr line.data name with
    | none => none
    | some assignmentStart =>
      let assignmentEnd := assignmentStart + name.length
      if assignmentStart ≤ pos.character ∧ pos.character ≤ assignmentEnd then
        some name.asString
      else none

/-! ### Brace scanning (`findResourceContext`) -/

/-- Outcome of checking one backward candidate declaration. -/
inductive CandidateOutcome where
  | inside
  | closedEarly
  | notInside
deriving DecidableEq

/-- Character scan of one line strictly before the query line: count
braces; `none` signals the early exit (`foundOpenBrace && braceCount
=== 0` on a line before the query position). -/
def scanLineBraces : List Char → Int → Bool → Option (Int × Bool)
  | [], count, found => some (count, found)
  | c :: t, count, found =>
    if c = '\x7b' then scanLineBraces t (count + 1) true
    else if c = '\x7d' then
      if found ∧ count - 1 = 0 then none
      else scanLineBraces t (count - 1) found
    else scanLineBraces t count found

/-- Character scan of the query line itself (the early exit is guarded
by `checkLine < position.line` in the source, so it cannot fire here). -/
def scanLineBracesAll : List Char → Int → Bool → Int × Bool
  | [], count, found => (count, found)
  | c :: t, count, found =>
    if c = '\x7b' then scanLineBracesAll t (count + 1) true
    else if c = '\x7d' then scanLineBracesAll t (count - 1) found
    else scanLineBracesAll t count found

/-- The inner loop of `findResourceContext`, over the slice of lines
from the candidate line to the query line (clipped at
`document.lineCount` like the source's loop guard).  The first counter
argument is the number of loop iterations the source would want
(distance to the query line plus one): when the document ends first,
the loop just runs out, which is `notInside`. -/
def ccLines : Nat → List (List Char) → Int → Bool → CandidateOutcome
  | _, [], _, _ => .notInside
  | 0, _ :: _, _, _ => .notInside
  | 1, l :: _, count, found =>
    let r := scanLineBracesAll l count found
    if r.2 ∧ 0 < r.1 then .inside else .notInside
  | rem + 2, l :: rest, count, found =>
    match scanLineBraces l count found with
    | none => .closedEarly
    | some cf => ccLines (rem + 1) rest cf.1 cf.2

/-- Check whether the query position lies inside the block opened by a
candidate declaration on `startLine`. -/
def checkCandidate (doc : List String) (startLine posLine : Nat) : CandidateOutcome :=
  ccLines (posLine + 1 - startLine)
    (((doc.drop startLine).take (posLine + 1 - startLine)).map String.data) 0 false

/-- One step of the backward scan of `findResourceContext`: `some r`
means the loop returns `r` (where `r = none` is the early
`return null`), `none` means the scan continues backward. -/
def frcCheckLine (doc : List String) (posLine l : Nat) : Option (Option Nat) :=
  if lineMatchesResource (lineAt doc l).data then
    match checkCandidate doc l posLine with
    | .inside => some (some l)
    | .closedEarly => some none
    | .notInside => none
  else none

/-- The backward scan from the query line to line 0. -/
def frcGo (doc : List String) (posLine : Nat) : Nat → Option Nat
  | 0 => (frcCheckLine doc posLine 0).getD none
  | l + 1 =>
    match frcCheckLine doc posLine (l + 1) with
    | some r => r
    | none => frcGo doc posLine l

/-- `findResourceContext`, reduced to the returned
`resourceStartLine` (the regex match object adds nothing the claims
need). -/
def findResourceContext (doc : List String) (pos : Pos) : Option Nat :=
  frcGo doc pos.line pos.line

/-- The spec's `findEnclosingBlock`: identical backward scan, except
that a candidate whose block closes before the query line is merely
rejected and the scan continues to earlier lines. -/
def specCheckLine (doc : List String) (posLine l : Nat) : Option Nat :=
  if lineMatchesResource (lineAt doc l).data ∧ checkCandidate doc l posLine = .inside then
    some l
  else none

/-- Backward scan with the spec's continue-on-rejection rule. -/
def specGo (doc : List String) (posLine : Nat) : Nat → Option Nat
  | 0 => specCheckLine doc posLine 0
  | l + 1 =>
    match specCheckLine doc posLine (l + 1) with
    | some r => some r
    | none => specGo doc posLine l

/-- The spec-described `findEnclosingBlock`. -/
def specFindEnclosingBlock (doc : List String) (pos : Pos) : Option Nat :=
  specGo doc pos.line pos.line

/-! ### `generateVariableHash` -/

/-- One character step of the nesting-level count: the first `\x7b` only
sets `foundResourceBrace`; later ones increment; `\x7d` decrements when
the counter is positive. -/
def gvhChar (c : Char) (n : Nat) (found : Bool) : Nat × Bool :=
  if c = '\x7b' then (if found then (n + 1, true) else (n, true))
  else if c = '\x7d' then (if found ∧ 0 < n then (n - 1, found) else (n, found))
  else (n, found)

/-- Whole-line scan (lines before the cursor line). -/
def gvhLineAll : List Char → Nat → Bool → Nat × Bool
  | [], n, found => (n, found)
  | c :: t, n, found =>
    let r := gvhChar c n found
    gvhLineAll t r.1 r.2

/-- Scan of the cursor line: the loop breaks after processing the
character at `position.character`. -/
def gvhLineUpTo (limit : Nat) : List Char → Nat → Nat → Bool → Nat × Bool
  | [], _, n, found => (n, found)
  | c :: t, idx, n, found =>
    let r := gvhChar c n found
    if limit ≤ idx then r
    else gvhLineUpTo limit t (idx + 1) r.1 r.2

/-- The line loop of `generateVariableHash`, over the slice of lines
from the resource start line to the cursor line (the last slice element
is the cursor line, where the scan breaks at `position.character`). -/
def gvhLines (posChar : Nat) : List (List Char) → Nat → Bool → Nat
  | [], n, _ => n
  | [last], n, found => (gvhLineUpTo posChar last 0 n found).1
  | l :: l2 :: rest, n, found =>
    let r := gvhLineAll l n found
    gvhLines posChar (l2 :: rest) r.1 r.2

/-- `generateVariableHash`: locate the enclosing resource, count the
nesting level starting from `1`, and suffix `-level` when positive. -/
def generateVariableHash (doc : List String) (pos : Pos) (variableName : String) : String :=
  match findResourceContext doc pos with
  | none => variableName
  | some startLine =>
    let nestingLevel :=
      gvhLines pos.character
        ((List.range' startLine (pos.line + 1 - startLine)).map
          (fun i => (lineAt doc i).data)) 1 false
    if 0 < nestingLevel then variableName ++ "-" ++ toString nestingLevel
    else variableName

/-! ### Characterization of the backward scan -/

/-- The backward scan returns `some l` exactly when line `l` is the
nearest declaration-matching line whose block is still open at the
query position, and every nearer matching candidate fails its check
without closing early (an early close aborts the whole search). -/
theorem frcGo_some_iff (doc : List String) (posLine : Nat) :
    ∀ k l, frcGo doc posLine k = some l ↔
      (l ≤ k ∧ lineMatchesResource (lineAt doc l).data = true ∧
        checkCandidate doc l posLine = .inside ∧
        ∀ l', l < l' → l' ≤ k → lineMatchesResource (lineAt doc l').data = true →
          checkCandidate doc l' posLine = .notInside) := by
  intro k
  induction k with
  | zero =>
    intro l
    constructor
    · intro h
      simp only [frcGo] at h
      by_cases hm : lineMatchesResource (lineAt doc 0).data
      · rcases hcc : checkCandidate doc 0 posLine with _ | _ | _
        · simp only [frcCheckLine, hm, if_true, hcc, Option.getD_some, Option.some.injEq] at h
          subst h
          exact ⟨le_refl 0, hm, hcc, fun l' h1 h2 _ => absurd (lt_of_lt_of_le h1 h2) (by omega)⟩
        · simp only [frcCheckLine, hm, if_true, hcc, Option.getD_some] at h
          cases h
        · simp only [frcCheckLine, hm, if_true, hcc, Option.getD_none] at h
          cases h
      · simp only [frcCheckLine, hm, if_false, Option.getD_none] at h
        cases h
    · rintro ⟨h1, h2, h3, _⟩
      have hl0 : l = 0 := Nat.le_zero.1 h1
      subst hl0
      simp [frcGo, frcCheckLine, h2, h3]
  | succ k ih =>
    intro l
    constructor
    · intro h
      simp only [frcGo] at h
      by_cases hm : lineMatchesResource (lineAt doc (k + 1)).data
      · rcases hcc : checkCandidate doc (k + 1) posLine with _ | _ | _
        · simp only [frcCheckLine, hm, if_true, hcc, Option.some.injEq] at h
          subst h
          exact ⟨le_refl _, hm, hcc, fun l' h1 h2 _ => absurd (lt_of_lt_of_le h1 h2) (by omega)⟩
        · simp only [frcCheckLine, hm, if_true, hcc] at h
          cases h
        · simp only [frcCheckLine, hm, if_true, hcc] at h
          obtain ⟨hl1, hl2, hl3, hl4⟩ := (ih l).1 h
          refine ⟨le_trans hl1 (by omega), hl2, hl3, ?_⟩
          intro l' ha hb hc
          rcases Nat.lt_or_ge l' (k + 1) with hlt | hge
          · exact hl4 l' ha (by omega) hc
          · have : l' = k + 1 := by omega
            subst this
            exact hcc
      · simp only [frcCheckLine, hm, if_false] at h
        obtain ⟨hl1, hl2, hl3, hl4⟩ := (ih l).1 h
        refine ⟨le_trans hl1 (by omega), hl2, hl3, ?_⟩
        intro l' ha hb hc
        rcases Nat.lt_or_ge l' (k + 1) with hlt | hge
        · exact hl4 l' ha (by omega) hc
        · have : l' = k + 1 := by omega
          subst this
          exact absurd hc (by simp [hm])
    · rintro ⟨h1, h2, h3, h4⟩
      simp only [frcGo]
      by_cases hlk : l = k + 1
      · subst hlk
        simp [frcCheckLine, h2, h3]
      · have hlle : l ≤ k := by omega
        by_cases hm : lineMatchesResource (lineAt doc (k + 1)).data
        · have hni : checkCandidate doc (k + 1) posLine = .notInside :=
            h4 (k + 1) (by omega) (le_refl _) hm
          simp only [frcCheckLine, hm, if_true, hni]
          exact (ih l).2 ⟨hlle, h2, h3, fun l' a b c => h4 l' a (by omega) c⟩
        · simp only [frcCheckLine, hm, if_false]
          exact (ih l).2 ⟨hlle, h2, h3, fun l' a b c => h4 l' a (by omega) c⟩

/-- No open brace means the final-line scan never sets
`foundOpenBrace`. -/
theorem scanLineBracesAll_no_open {l : List Char} (count : Int)
    (h : ∀ ch ∈ l, ch ≠ '\x7b') : (scanLineBracesAll l count false).2 = false := by
  induction l generalizing count with
  | nil => rfl
  | cons c t ih =>
    have hc : c ≠ '\x7b' := h c (List.mem_cons_self c t)
    by_cases hd : c = '\x7d'
    · simp only [scanLineBracesAll, if_neg hc, if_pos hd]
      exact ih _ (fun ch hch => h ch (List.mem_cons_of_mem c hch))
    · simp only [scanLineBracesAll, if_neg hc, if_neg hd]
      exact ih _ (fun ch hch => h ch (List.mem_cons_of_mem c hch))

/-! ### Claim C1 (the nesting-level off-by-one) -/

/-- The spec's concrete document for the root-level-variable example. -/
def exampleDocC1 : List String :=
  ["resource \"aws_instance\" \"web\" \x7b", "  ami = \"x\"", "\x7d"]

/-- C1.  Evaluation of the source at the spec's own example: the cursor
on the `ami` line inside the resource block does yield the variable
`ami` and the enclosing resource at line 0, but `generateVariableHash`
initializes its counter at `1`, so the computed hash fragment is
`"ami-1"` — not the `"ami"` the claim (and the changelog's
root-level-variable rule) requires. -/
theorem C1_root_level_variable_hash_evaluation :
    getVariableAtPosition "  ami = \"x\"" ⟨1, 3⟩ = some "ami" ∧
      findResourceContext exampleDocC1 ⟨1, 3⟩ = some 0 ∧
      generateVariableHash exampleDocC1 ⟨1, 3⟩ "ami" = "ami-1" := by decide

/-! ### Claim C4 (early close aborts instead of continuing backward) -/

/-- A document whose nearest backward declaration (line 1) closes its
block before the query line 3, while the outer declaration at line 0 is
still open there. -/
def exampleDocC4 : List String :=
  ["resource \"a_b\" \"c\" \x7b", "resource \"d_e\" \"f\" \x7b", "\x7d", "  x = 1", "\x7d"]

/-- C4 counterexample.  The spec-described scan (reject the closed
candidate, continue backward) finds the open declaration at line 0, but
the source's `findResourceContext` returns `null` outright when the
nearest candidate's block closed early. -/
theorem C4_counterexample_early_close_aborts :
    specFindEnclosingBlock exampleDocC4 ⟨3, 2⟩ = some 0 ∧
      findResourceContext exampleDocC4 ⟨3, 2⟩ = none := by decide

/-- C4 (amended).  `findResourceContext` returns a declaration exactly
when it is the nearest backward declaration-matching line whose block
is still open at the query position and every nearer matching
candidate fails its check without closing early; a nearer candidate
whose block closes before the query line makes the whole search return
none. -/
theorem C4_nearest_open_unless_nearer_early_close (doc : List String) (pos : Pos) (l : Nat) :
    findResourceContext doc pos = some l ↔
      (l ≤ pos.line ∧ lineMatchesResource (lineAt doc l).data = true ∧
        checkCandidate doc l pos.line = .inside ∧
        ∀ l', l < l' → l' ≤ pos.line → lineMatchesResource (lineAt doc l').data = true →
          checkCandidate doc l' pos.line = .notInside) :=
  frcGo_some_iff doc pos.line pos.line l

/-- Witness for the amended C4 at a two-line document. -/
theorem C4_nearest_open_unless_nearer_early_close_witness :
    findResourceContext ["resource \"a_b\" \"c\" \x7b", "  x = 1"] ⟨1, 2⟩ = some 0 :=
  (C4_nearest_open_unless_nearer_early_close ["resource \"a_b\" \"c\" \x7b", "  x = 1"]
      ⟨1, 2⟩ 0).2
    ⟨by decide, by decide, by decide, by
      intro l' h1 h2 hm
      interval_cases l'
      exact absurd hm (by decide)⟩

/-! ### Claim C5 (position on the declaration line before the brace) -/

/-- A one-block document used against C5. -/
def exampleDocC5 : List String :=
  ["resource \"aws_instance\" \"web\" \x7b", "\x7d"]

/-- C5 counterexample.  The opening brace of the declaration line sits
at character 30, the cursor at character 0 — before the brace — yet
`findResourceContext` reports the position as inside the block, because
the brace scan always processes the entire declaration line and ignores
`position.character`. -/
theorem C5_counterexample_before_brace_still_inside :
    (exampleDocC5.getD 0 "").data.indexOf '\x7b' = 30 ∧
      findResourceContext exampleDocC5 ⟨0, 0⟩ = some 0 := by decide

/-- C5 (amended).  A position on the declaration line is not attributed
to that declaration only when the line contains no opening brace at all
(the opening brace sits on a later line); the cursor's character plays
no role in the brace scan. -/
theorem C5_not_inside_when_brace_on_later_line (doc : List String) (pos : Pos)
    (hnb : ∀ ch ∈ (lineAt doc pos.line).data, ch ≠ '\x7b') :
    findResourceContext doc pos ≠ some pos.line := by
  intro h
  obtain ⟨-, -, h3, -⟩ := (frcGo_some_iff doc pos.line pos.line pos.line).1 h
  unfold checkCandidate at h3
  have hone : pos.line + 1 - pos.line = 1 := by omega
  rw [hone] at h3
  rcases hd : doc.drop pos.line with _ | ⟨a, rest⟩
  · rw [hd] at h3
    simp [ccLines] at h3
  · rw [hd] at h3
    have ha : lineAt doc pos.line = a := by
      have h0 : doc[pos.line]? = some a := by
        have hgd := List.getElem?_drop doc pos.line 0
        rw [hd] at hgd
        simpa using hgd.symm
      simp [lineAt, List.getD_eq_getElem?_getD, h0]
    rw [ha] at hnb
    have hf : (scanLineBracesAll a.data 0 false).2 = false :=
      scanLineBracesAll_no_open 0 hnb
    simp only [List.take_succ_cons, List.take_zero, List.map_cons, List.map_nil,
      ccLines, hf, false_and, if_false] at h3
    cases h3

/-- Witness for the amended C5 at a document whose declaration keeps
its opening brace off the first line. -/
theorem C5_not_inside_when_brace_on_later_line_witness :
    findResourceContext ["x = 1"] ⟨0, 0⟩ ≠ some 0 :=
  C5_not_inside_when_brace_on_later_line ["x = 1"] ⟨0, 0⟩ (by decide)

/-! ### Claim C7 (the comparison is a strict weak ordering) -/

/-- C7.  On valid semantic versions, `compareVersions` orders by major,
minor, patch numerically ascending, ranks a prerelease version below
the same triple without one, compares two prerelease tags
lexicographically (the `specLt` characterization), is transitive in its
strict part, and compares every version equal to itself. -/
theorem C7_compareVersions_strict_weak_order :
    ∀ (sa sb sc : String) (a b c : SemanticVersion),
      parseSemanticVersion sa = some a → parseSemanticVersion sb = some b →
      parseSemanticVersion sc = some c →
      ((compareVersions a b < 0 ↔ specLt a b) ∧
        (compareVersions a b < 0 → compareVersions b c < 0 → compareVersions a c < 0) ∧
        compareVersions a a = 0) := by
  intro sa sb sc a b c _ _ _
  refine ⟨compareVersions_lt_iff a b, ?_, compareVersions_self a⟩
  intro h1 h2
  exact (compareVersions_lt_iff a c).2
    (specLt_trans ((compareVersions_lt_iff a b).1 h1) ((compareVersions_lt_iff b c).1 h2))

/-- Witness for C7 on the chain
`1.2.3-alpha < 1.2.3 < 1.3.0`. -/
theorem C7_compareVersions_strict_weak_order_witness :
    (compareVersions ⟨1, 2, 3, some "alpha", "1.2.3-alpha"⟩ ⟨1, 2, 3, none, "1.2.3"⟩ < 0 ↔
        specLt ⟨1, 2, 3, some "alpha", "1.2.3-alpha"⟩ ⟨1, 2, 3, none, "1.2.3"⟩) ∧
      (compareVersions ⟨1, 2, 3, some "alpha", "1.2.3-alpha"⟩ ⟨1, 2, 3, none, "1.2.3"⟩ < 0 →
        compareVersions ⟨1, 2, 3, none, "1.2.3"⟩ ⟨1, 3, 0, none, "1.3.0"⟩ < 0 →
        compareVersions ⟨1, 2, 3, some "alpha", "1.2.3-alpha"⟩ ⟨1, 3, 0, none, "1.3.0"⟩ < 0) ∧
      compareVersions ⟨1, 2, 3, some "alpha", "1.2.3-alpha"⟩
          ⟨1, 2, 3, some "alpha", "1.2.3-alpha"⟩ = 0 :=
  C7_compareVersions_strict_weak_order "1.2.3-alpha" "1.2.3" "1.3.0" _ _ _
    (by decide) (by decide) (by decide)

/-! ### Claim C9 (the latest-version cache)

The network fetch is modelled as an explicit per-call input: the
`latestVersion` value the source computes from the registry response
(`none` covering a non-ok response, a response without versions, and a
thrown error). -/

/-- Insertion-ordered map lookup (`Map.prototype.has`/`get`). -/
def cacheGet : List (String × String) → String → Option String
  | [], _ => none
  | (k, v) :: t, key => if k = key then some v else cacheGet t key

/-- `Map.prototype.set`: replace in place or append. -/
def cacheSet : List (String × String) → String → String → List (String × String)
  | [], key, value => [(key, value)]
  | (k, v) :: t, key, value =>
    if k = key then (key, value) :: t else (k, v) :: cacheSet t key value

/-- One call to `getLatestProviderVersion`: the provider identity and
the fetch outcome. -/
structure LookupCall where
  ns : String
  providerName : String
  fetched : Option String
deriving DecidableEq

/-- The cache key `namespace/providerName`. -/
def cacheKey (call : LookupCall) : String :=
  call.ns ++ "/" ++ call.providerName

/-- `getLatestProviderVersion` as a cache transformer: a cached key is
answered from the cache (`get(...) || null`); otherwise a truthy
fetched version is stored and returned; anything else returns `null`
and stores nothing. -/
def getLatestProviderVersion (cache : List (String × String)) (call : LookupCall) :
    Option String × List (String × String) :=
  let key := cacheKey call
  match cacheGet cache key with
  | some v => (if v = "" then none else some v, cache)
  | none =>
    match call.fetched with
    | some v => if v = "" then (none, cache) else (some v, cacheSet cache key v)
    | none => (none, cache)

/-- A sequence of calls starting from a given cache, collecting the
results. -/
def runLookups : List (String × String) → List LookupCall → List (Option String) × List (String × String)
  | cache, [] => ([], cache)
  | cache, c :: t =>
    let r := getLatestProviderVersion cache c
    let rest := runLookups r.2 t
    (r.1 :: rest.1, rest.2)

theorem cacheGet_cacheSet (m : List (String × String)) (key value k : String) :
    cacheGet (cacheSet m key value) k = if key = k then some value else cacheGet m k := by
  induction m with
  | nil => simp [cacheSet, cacheGet]
  | cons p t ih =>
    obtain ⟨k', v'⟩ := p
    by_cases h1 : k' = key
    · subst h1
      simp only [cacheSet, if_pos rfl, cacheGet]
      by_cases h2 : k' = k <;> simp [cacheGet, h2]
    · simp only [cacheSet, if_neg h1, cacheGet]
      by_cases h2 : k' = k
      · subst h2
        rw [if_pos rfl, if_neg (fun hh => h1 hh.symm), if_pos rfl]
      · rw [if_neg h2, ih]
        by_cases h3 : key = k <;> simp [h3, h2]

/-- The invariant that every cached value is truthy. -/
def CacheTruthy (cache : List (String × String)) : Prop :=
  ∀ k v, cacheGet cache k = some v → v ≠ ""

theorem getLatestProviderVersion_hit {cache : List (String × String)} {call : LookupCall}
    {v : String} (hg : cacheGet cache (cacheKey call) = some v) :
    getLatestProviderVersion cache call = (if v = "" then none else some v, cache) := by
  unfold getLatestProviderVersion
  dsimp only
  simp only [hg]

theorem getLatestProviderVersion_miss_none {cache : List (String × String)}
    {call : LookupCall} (hg : cacheGet cache (cacheKey call) = none)
    (hf : call.fetched = none) : getLatestProviderVersion cache call = (none, cache) := by
  unfold getLatestProviderVersion
  dsimp only
  simp only [hg, hf]

theorem getLatestProviderVersion_miss_some {cache : List (String × String)}
    {call : LookupCall} {v : String} (hg : cacheGet cache (cacheKey call) = none)
    (hf : call.fetched = some v) :
    getLatestProviderVersion cache call =
      (if v = "" then (none, cache) else (some v, cacheSet cache (cacheKey call) v)) := by
  unfold getLatestProviderVersion
  dsimp only
  simp only [hg, hf]

theorem cacheTruthy_step {cache : List (String × String)} (call : LookupCall)
    (h : CacheTruthy cache) : CacheTruthy (getLatestProviderVersion cache call).2 := by
  rcases hg : cacheGet cache (cacheKey call) with _ | v
  · rcases hf : call.fetched with _ | v
    · rw [getLatestProviderVersion_miss_none hg hf]
      exact h
    · rw [getLatestProviderVersion_miss_some hg hf]
      by_cases hv : v = ""
      · rw [if_pos hv]
        exact h
      · rw [if_neg hv]
        intro k w hw
        dsimp only at hw
        rw [cacheGet_cacheSet] at hw
        by_cases hk : cacheKey call = k
        · rw [if_pos hk] at hw
          cases hw
          exact hv
        · rw [if_neg hk] at hw
          exact h k w hw
  · rw [getLatestProviderVersion_hit hg]
    exact h

/-- Some call in the sequence targets key `k` and its result was a
version (`some`). -/
def AnySuccessFor (k : String) : List LookupCall → List (Option String) → Prop
  | c :: cs, r :: rs => (cacheKey c = k ∧ r.isSome = true) ∨ AnySuccessFor k cs rs
  | _, _ => False

theorem step_cached_iff (cache : List (String × String)) (htr : CacheTruthy cache)
    (c : LookupCall) (k : String) :
    (cacheGet (getLatestProviderVersion cache c).2 k).isSome = true ↔
      ((cacheGet cache k).isSome = true ∨
        (cacheKey c = k ∧ (getLatestProviderVersion cache c).1.isSome = true)) := by
  rcases hg : cacheGet cache (cacheKey c) with _ | v
  · rcases hf : c.fetched with _ | v
    · rw [getLatestProviderVersion_miss_none hg hf]
      simp
    · rw [getLatestProviderVersion_miss_some hg hf]
      by_cases hv : v = ""
      · rw [if_pos hv]
        simp
      · rw [if_neg hv]
        dsimp only
        rw [cacheGet_cacheSet]
        by_cases hk : cacheKey c = k
        · simp [hk]
        · simp [hk]
  · rw [getLatestProviderVersion_hit hg]
    have hv : v ≠ "" := htr _ _ hg
    dsimp only
    rw [if_neg hv]
    constructor
    · intro h
      exact Or.inl h
    · intro h
      rcases h with h | ⟨hk, _⟩
      · exact h
      · rw [← hk, hg]
        rfl

theorem runLookups_cached_iff (calls : List LookupCall) :
    ∀ (cache : List (String × String)), CacheTruthy cache →
      ∀ k, (cacheGet (runLookups cache calls).2 k).isSome = true ↔
        ((cacheGet cache k).isSome = true ∨
          AnySuccessFor k calls (runLookups cache calls).1) := by
  induction calls with
  | nil => intro cache _ k; simp [runLookups, AnySuccessFor]
  | cons c t ih =>
    intro cache htr k
    have iht := ih _ (cacheTruthy_step c htr) k
    have hstep := step_cached_iff cache htr c k
    simp only [runLookups]
    rw [show AnySuccessFor k (c :: t)
        ((getLatestProviderVersion cache c).1 ::
          (runLookups (getLatestProviderVersion cache c).2 t).1) =
        ((cacheKey c = k ∧ (getLatestProviderVersion cache c).1.isSome = true) ∨
          AnySuccessFor k t (runLookups (getLatestProviderVersion cache c).2 t).1) from rfl]
    rw [iht, hstep]
    tauto

/-- C9.  The latest-version cache holds only successful lookups: a
failed or empty lookup returns `null` and leaves the cache unchanged
(so it is retried on the next call); a successful lookup's version is
stored under the provider identity and survives every later call; and,
starting from the empty cache of process start, an identity is cached
after a sequence of calls exactly when some call for it returned a
version. -/
theorem C9_cache_holds_exactly_successes :
    (∀ cache call, (getLatestProviderVersion cache call).1 = none →
        (getLatestProviderVersion cache call).2 = cache) ∧
      (∀ cache call v, (getLatestProviderVersion cache call).1 = some v →
        cacheGet (getLatestProviderVersion cache call).2 (cacheKey call) = some v) ∧
      (∀ cache call k v, cacheGet cache k = some v →
        cacheGet (getLatestProviderVersion cache call).2 k = some v) ∧
      (∀ calls k, (cacheGet (runLookups [] calls).2 k).isSome = true ↔
        AnySuccessFor k calls (runLookups [] calls).1) := by
  refine ⟨?_, ?_, ?_, ?_⟩
  · intro cache call h
    rcases hg : cacheGet cache (cacheKey call) with _ | v
    · rcases hf : call.fetched with _ | w
      · rw [getLatestProviderVersion_miss_none hg hf]
      · rw [getLatestProviderVersion_miss_some hg hf] at h ⊢
        by_cases hw : w = ""
        · rw [if_pos hw]
        · rw [if_neg hw] at h
          simp at h
    · rw [getLatestProviderVersion_hit hg]
  · intro cache call v h
    rcases hg : cacheGet cache (cacheKey call) with _ | w
    · rcases hf : call.fetched with _ | w
      · rw [getLatestProviderVersion_miss_none hg hf] at h
        simp at h
      · rw [getLatestProviderVersion_miss_some hg hf] at h ⊢
        by_cases hw : w = ""
        · rw [if_pos hw] at h
          simp at h
        · rw [if_neg hw] at h ⊢
          dsimp only at h ⊢
          cases h
          rw [cacheGet_cacheSet, if_pos rfl]
    · rw [getLatestProviderVersion_hit hg] at h ⊢
      dsimp only at h ⊢
      by_cases hw : w = ""
      · rw [if_pos hw] at h
        simp at h
      · rw [if_neg hw] at h
        cases h
        exact hg
  · intro cache call k v h
    rcases hg : cacheGet cache (cacheKey call) with _ | w
    · rcases hf : call.fetched with _ | w
      · rw [getLatestProviderVersion_miss_none hg hf]
        exact h
      · rw [getLatestProviderVersion_miss_some hg hf]
        by_cases hw : w = ""
        · rw [if_pos hw]
          exact h
        · rw [if_neg hw]
          dsimp only
          rw [cacheGet_cacheSet]
          by_cases hk : cacheKey call = k
          · rw [← hk, hg] at h
            cases h
          · rw [if_neg hk]
            exact h
    · rw [getLatestProviderVersion_hit hg]
      exact h
  · intro calls k
    have hiff := runLookups_cached_iff calls [] (fun k v h => by cases h) k
    simpa [cacheGet] using hiff

/-- Witness for C9: a failed lookup stores nothing, a successful one is
cached, and after a failure-then-success trace the identity is cached. -/
theorem C9_cache_holds_exactly_successes_witness :
    (getLatestProviderVersion [] ⟨"hashicorp", "aws", none⟩).2 = [] ∧
      cacheGet (getLatestProviderVersion [] ⟨"hashicorp", "aws", some "5.0.0"⟩).2
          (cacheKey ⟨"hashicorp", "aws", some "5.0.0"⟩) = some "5.0.0" ∧
      ((cacheGet (runLookups []
            [⟨"hashicorp", "aws", none⟩, ⟨"hashicorp", "aws", some "5.0.0"⟩]).2
          "hashicorp/aws").isSome = true ↔
        AnySuccessFor "hashicorp/aws"
          [⟨"hashicorp", "aws", none⟩, ⟨"hashicorp", "aws", some "5.0.0"⟩]
          (runLookups []
            [⟨"hashicorp", "aws", none⟩, ⟨"hashicorp", "aws", some "5.0.0"⟩]).1) :=
  ⟨C9_cache_holds_exactly_successes.1 [] ⟨"hashicorp", "aws", none⟩ (by decide),
    C9_cache_holds_exactly_successes.2.1 [] ⟨"hashicorp", "aws", some "5.0.0"⟩ "5.0.0"
      (by decide),
    C9_cache_holds_exactly_successes.2.2.2
      [⟨"hashicorp", "aws", none⟩, ⟨"hashicorp", "aws", some "5.0.0"⟩] "hashicorp/aws"⟩

/-! ### Claim C8: `parseTerraformLockFile`

The parser is regex-driven; each pattern is translated to the
deterministic scanner it denotes.  Two regex quirks are preserved
faithfully: the provider-block body group `[^\x7d]*(?:\x7b[^\x7d]*\x7d[^\x7d]*)*`
is followed only by the final close brace, so the engine always
succeeds with zero iterations of the inner group and the captured body
ends at the first close brace; and `/"([^"]+)"/g` restarts one
character after an empty quote pair. -/

/-- `\w`, the class `[A-Za-z0-9_]`. -/
def isWordChar (c : Char) : Bool :=
  c.isAlphanum || c == '_'

/-- The class `[\w-]`. -/
def isWordHyphen (c : Char) : Bool :=
  isWordChar c || c == '-'

/-- Comment removal, `content.replace(/#.*$/gm, '')`: drop from each
`#` to the end of its line.  The flag says whether we are inside a
comment. -/
def stripCommentsGo : Bool → List Char → List Char
  | _, [] => []
  | false, c :: t => if c = '#' then stripCommentsGo true t else c :: stripCommentsGo false t
  | true, c :: t => if c = '\n' then '\n' :: stripCommentsGo false t else stripCommentsGo true t

/-- Comment removal from the start of the content. -/
def stripComments (l : List Char) : List Char :=
  stripCommentsGo false l

/-- Match of the host-prefix pattern `[\w-]*(\.[\w-]*)*\.\w*\/` at the
head of the input: a chain of word/hyphen segments separated by dots,
containing at least one dot, whose final segment is hyphen-free,
immediately followed by `/`.  Returns the rest after the slash.  (The
chain shape is forced: every star is over classes disjoint from both
`.` and `/`.) -/
def hostChainEnd : List Char → Bool → Bool → Option (List Char)
  | [], _, _ => none
  | c :: t, sawDot, wordOnly =>
    if isWordHyphen c then hostChainEnd t sawDot (wordOnly && isWordChar c)
    else if c = '.' then hostChainEnd t true true
    else if c = '/' then (if sawDot ∧ wordOnly then some t else none)
    else none

/-- `source.replace(/[\w-]*(\.[\w-]*)*\.\w*\//, '')`: remove the first
match of the host-prefix pattern. -/
def hostStripGo : List Char → List Char
  | [] => []
  | c :: t =>
    match hostChainEnd (c :: t) false true with
    | some rest => rest
    | none => c :: hostStripGo t

/-- The source-normalization applied to the provider block's first
capture. -/
def hostStrip (l : List Char) : List Char :=
  hostStripGo l

/-- `\s+` followed by maximal whitespace consumption. -/
def expectWsPlus : List Char → Option (List Char)
  | [] => none
  | c :: t => if c.isWhitespace then some (t.dropWhile Char.isWhitespace) else none

/-- A single mandatory character. -/
def expectChar (c : Char) : List Char → Option (List Char)
  | [] => none
  | x :: t => if x = c then some t else none

/-- Greedy `[^c]*`: the prefix before the first occurrence of `c`, and
the rest starting at that occurrence. -/
def takeUntilChar (c : Char) (l : List Char) : List Char × List Char :=
  (l.takeWhile (fun ch => ch ≠ c), l.dropWhile (fun ch => ch ≠ c))

/-- One attempt of the provider-block pattern
`provider\s+"([^"]+)"\s*\x7b(body)\x7d` at the head of the input,
returning the source capture, the body capture (which ends at the first
close brace, see the header note) and the rest after that brace. -/
def tryProviderAt (l : List Char) : Option (List Char × List Char × List Char) :=
  match expectLit "provider".data l with
  | none => none
  | some l1 =>
    match expectWsPlus l1 with
    | none => none
    | some l2 =>
      match expectChar '"' l2 with
      | none => none
      | some l3 =>
        let src := (takeUntilChar '"' l3).1
        if src.isEmpty then none
        else
          match expectChar '"' (takeUntilChar '"' l3).2 with
          | none => none
          | some l4 =>
            match expectChar '\x7b' (l4.dropWhile Char.isWhitespace) with
            | none => none
            | some l5 =>
              let body := (takeUntilChar '\x7d' l5).1
              match expectChar '\x7d' (takeUntilChar '\x7d' l5).2 with
              | none => none
              | some l6 => some (src, body, l6)

/-- The global `providerRegex.exec` loop's search for the next match. -/
def findProviderFrom : List Char → Option (List Char × List Char × List Char)
  | [] => none
  | c :: t =>
    match tryProviderAt (c :: t) with
    | some r => some r
    | none => findProviderFrom t

/-- One attempt of `<keyword>\s*=\s*"([^"]+)"` at the head of the
input. -/
def tryKeyStringAt (keyword : List Char) (l : List Char) : Option (List Char) :=
  match expectLit keyword l with
  | none => none
  | some l1 =>
    match expectChar '=' (l1.dropWhile Char.isWhitespace) with
    | none => none
    | some l2 =>
      match expectChar '"' (l2.dropWhile Char.isWhitespace) with
      | none => none
      | some l3 =>
        let v := (takeUntilChar '"' l3).1
        if v.isEmpty then none
        else
          match expectChar '"' (takeUntilChar '"' l3).2 with
          | none => none
          | some _ => some v

/-- First match of `<keyword>\s*=\s*"([^"]+)"` (used for `version` and
`constraints`). -/
def findKeyString (keyword : List Char) : List Char → Option (List Char)
  | [] => none
  | c :: t =>
    match tryKeyStringAt keyword (c :: t) with
    | some v => some v
    | none => findKeyString keyword t

/-- One attempt of `<keyword>\s*=\s*\[([\s\S]*?)\]` at the head of the
input; the lazy group captures up to the first `]`. -/
def tryKeyListAt (keyword : List Char) (l : List Char) : Option (List Char) :=
  match expectLit keyword l with
  | none => none
  | some l1 =>
    match expectChar '=' (l1.dropWhile Char.isWhitespace) with
    | none => none
    | some l2 =>
      match expectChar '[' (l2.dropWhile Char.isWhitespace) with
      | none => none
      | some l3 =>
        match expectChar ']' (takeUntilChar ']' l3).2 with
        | none => none
        | some _ => some (takeUntilChar ']' l3).1

/-- First match of the bracket-list pattern (used for `hashes` and
`platforms`). -/
def findKeyList (keyword : List Char) : List Char → Option (List Char)
  | [] => none
  | c :: t =>
    match tryKeyListAt keyword (c :: t) with
    | some v => some v
    | none => findKeyList keyword t

/-- All matches of `/"([^"]+)"/g` with the quotes stripped, as applied
to the bracket-list contents.  The first state component says whether
an opening quote has been seen, accumulating the capture reversed. -/
def scanQuotedGo : Option (List Char) → List Char → List String
  | _, [] => []
  | none, c :: t => if c = '"' then scanQuotedGo (some []) t else scanQuotedGo none t
  | some acc, c :: t =>
    if c = '"' then
      if acc.isEmpty then scanQuotedGo (some []) t
      else acc.reverse.asString :: scanQuotedGo none t
    else scanQuotedGo (some (c :: acc)) t

/-- Quoted-string extraction from a bracket list's contents. -/
def scanQuoted (l : List Char) : List String :=
  scanQuotedGo none l

/-- The record built for each provider block. -/
structure TerraformProvider where
  source : String
  version : String
  constraints : Option String
  hashes : List String
  platforms : Option (List String)
deriving DecidableEq

/-- Field extraction from a provider block body. -/
def buildProvider (src body : List Char) : TerraformProvider :=
  { source := (hostStrip src).asString
    version := ((findKeyString "version".data body).map List.asString).getD ""
    constraints := (findKeyString "constraints".data body).map List.asString
    hashes := ((findKeyList "hashes".data body).map scanQuoted).getD []
    platforms := (findKeyList "platforms".data body).map scanQuoted }

/-- `Map.prototype.set` on the providers map. -/
def setProvider : List (String × TerraformProvider) → String → TerraformProvider →
    List (String × TerraformProvider)
  | [], k, p => [(k, p)]
  | (k', p') :: t, k, p =>
    if k' = k then (k, p) :: t else (k', p') :: setProvider t k p

/-- `Map.prototype.get` on the providers map. -/
def lookupProvider : List (String × TerraformProvider) → String → Option TerraformProvider
  | [], _ => none
  | (k', p') :: t, k => if k' = k then some p' else lookupProvider t k

/-- The parsed lock file: the providers map in insertion order. -/
structure TerraformLockFile where
  providers : List (String × TerraformProvider)
deriving DecidableEq

theorem length_dropWhile_le (p : Char → Bool) (l : List Char) :
    (l.dropWhile p).length ≤ l.length := by
  induction l with
  | nil => simp
  | cons c t ih =>
    by_cases h : p c
    · simp only [List.dropWhile_cons, h, if_true]
      exact le_trans ih (by simp)
    · simp [List.dropWhile_cons, h]

theorem expectLit_length {pat l r : List Char} (h : expectLit pat l = some r) :
    r.length + pat.length = l.length := by
  induction pat generalizing l with
  | nil =>
    cases h
    simp
  | cons c cs ih =>
    cases l with
    | nil => cases h
    | cons x t =>
      simp only [expectLit] at h
      by_cases hx : x = c
      · rw [if_pos hx] at h
        have := ih h
        simp only [List.length_cons]
        omega
      · rw [if_neg hx] at h
        cases h

theorem expectWsPlus_length {l r : List Char} (h : expectWsPlus l = some r) :
    r.length < l.length := by
  cases l with
  | nil => cases h
  | cons c t =>
    simp only [expectWsPlus] at h
    by_cases hc : c.isWhitespace
    · rw [if_pos hc] at h
      cases h
      have := length_dropWhile_le Char.isWhitespace t
      simp only [List.length_cons]
      omega
    · rw [if_neg hc] at h
      cases h

theorem expectChar_length {c : Char} {l r : List Char} (h : expectChar c l = some r) :
    r.length < l.length := by
  cases l with
  | nil => cases h
  | cons x t =>
    simp only [expectChar] at h
    by_cases hx : x = c
    · rw [if_pos hx] at h
      cases h
      simp
    · rw [if_neg hx] at h
      cases h

theorem tryProviderAt_length {l : List Char} {src body rest : List Char}
    (h : tryProviderAt l = some (src, body, rest)) : rest.length < l.length := by
  unfold tryProviderAt at h
  rcases h1 : expectLit "provider".data l with _ | l1 <;> simp only [h1] at h
  · cases h
  rcases h2 : expectWsPlus l1 with _ | l2 <;> simp only [h2] at h
  · cases h
  rcases h3 : expectChar '"' l2 with _ | l3 <;> simp only [h3] at h
  · cases h
  by_cases hsrc : (takeUntilChar '"' l3).1.isEmpty
  · rw [if_pos hsrc] at h
    cases h
  rw [if_neg hsrc] at h
  rcases h4 : expectChar '"' (takeUntilChar '"' l3).2 with _ | l4 <;> simp only [h4] at h
  · cases h
  rcases h5 : expectChar '\x7b' (l4.dropWhile Char.isWhitespace) with _ | l5 <;>
    simp only [h5] at h
  · cases h
  rcases h6 : expectChar '\x7d' (takeUntilChar '\x7d' l5).2 with _ | l6 <;> simp only [h6] at h
  · cases h
  cases h
  have e1 := expectLit_length h1
  have e2 := expectWsPlus_length h2
  have e3 := expectChar_length h3
  have e4 := expectChar_length h4
  have e5 := expectChar_length h5
  have e6 := expectChar_length h6
  have d1 : (takeUntilChar '"' l3).2.length ≤ l3.length :=
    length_dropWhile_le _ l3
  have d2 : (l4.dropWhile Char.isWhitespace).length ≤ l4.length :=
    length_dropWhile_le _ l4
  have d3 : (takeUntilChar '\x7d' l5).2.length ≤ l5.length :=
    length_dropWhile_le _ l5
  simp only [List.length_cons, String.data] at e1
  omega

theorem findProviderFrom_length {l : List Char} {src body rest : List Char}
    (h : findProviderFrom l = some (src, body, rest)) : rest.length < l.length := by
  induction l with
  | nil => cases h
  | cons c t ih =>
    simp only [findProviderFrom] at h
    rcases ht : tryProviderAt (c :: t) with _ | r
    · rw [ht] at h
      have := ih h
      simp only [List.length_cons]
      omega
    · rw [ht] at h
      cases h
      exact tryProviderAt_length ht

/-- The `while ((match = providerRegex.exec(cleanContent)) !== null)`
loop, building the providers map. -/
def parseProvidersLoop (l : List Char) (providers : List (String × TerraformProvider)) :
    List (String × TerraformProvider) :=
  match hf : findProviderFrom l with
  | none => providers
  | some (src, body, rest) =>
    let p := buildProvider src body
    parseProvidersLoop rest (setProvider providers p.source p)
termination_by l.length
decreasing_by exact findProviderFrom_length hf

/-- `parseTerraformLockFile`: strip comments, then scan provider blocks
and collect them into the map keyed by normalized source. -/
def parseTerraformLockFile (content : String) : TerraformLockFile :=
  ⟨parseProvidersLoop (stripComments content.data) []⟩

/-! #### The rendered family of lock files

C8 quantifies over lock files of the stated grammar: any number of
provider blocks, each with arbitrary well-formed source, version and
constraints strings, comment lines and trailing comments, `hashes` and
`platforms` lists, and a nested brace-delimited sub-block. -/

/-- One provider block's variable parts. -/
structure ProviderEntry where
  src : String
  ver : String
  cons : String
deriving DecidableEq

/-- Characters allowed in a rendered version or constraints string:
the digits/operators alphabet these fields draw on in a real lock file
(letter-free, quote-free, brace-free). -/
def versionCharOK (c : Char) : Bool :=
  c.isDigit || c == '.' || c == '-' || c == ',' || c == ' ' || c == '>' || c == '<' ||
    c == '=' || c == '~' || c == '!'

/-- Characters allowed in a rendered provider source: alphanumerics,
slash, hyphen, underscore (dot-free, so the host-prefix strip is the
identity). -/
def srcCharOK (c : Char) : Bool :=
  c.isAlphanum || c == '/' || c == '-' || c == '_'

/-- Well-formedness of one rendered provider block. -/
def ProviderEntryWF (p : ProviderEntry) : Prop :=
  p.src ≠ "" ∧ (∀ c ∈ p.src.data, srcCharOK c = true) ∧
    p.ver ≠ "" ∧ (∀ c ∈ p.ver.data, versionCharOK c = true) ∧
    p.cons ≠ "" ∧ (∀ c ∈ p.cons.data, versionCharOK c = true)

/-- Body prefix of a rendered block, before the version value. -/
def bcV : List Char := "\n  version = \"".data

/-- Body chunk between the version and constraints values. -/
def bcC : List Char := "\" \n  constraints = \"".data

/-- Body tail after the constraints value: the `hashes` and `platforms`
lists and a nested sub-block, up to (excluding) the sub-block's close
brace. -/
def bcT : List Char :=
  "\"\n  hashes = [\n    \"h1:abc=\",\n  ]\n  platforms = [\"linux_amd64\"]\n  meta \x7b\n    enabled = true\n  ".data

/-- The body capture the parser extracts for a rendered block. -/
def bodyChars (p : ProviderEntry) : List Char :=
  bcV ++ p.ver.data ++ bcC ++ p.cons.data ++ bcT

/-- The text after a rendered block's first close brace: the rest of
the nested sub-block and the block's own close brace. -/
def rpTailB : List Char := "\n\x7d\n".data

/-- A rendered block after comment stripping, minus its leading
newline. -/
def providerCore (p : ProviderEntry) : List Char :=
  "provider".data ++ ' ' :: '"' ::
    (p.src.data ++ '"' :: ' ' :: '\x7b' :: (bodyChars p ++ '\x7d' :: rpTailB))

/-- Source chunk: comment line, then the block head. -/
def rpA : List Char := "# lock entry\nprovider \"".data

/-- Source chunk between source and version, opening the block. -/
def rpB : List Char := "\" \x7b\n  version = \"".data

/-- Source chunk between version and constraints, with a trailing
comment on the version line. -/
def rpC : List Char := "\" # pinned\n  constraints = \"".data

/-- Source chunk after the constraints value: lists, the nested
sub-block, and both close braces. -/
def rpD : List Char :=
  "\"\n  hashes = [\n    \"h1:abc=\",\n  ]\n  platforms = [\"linux_amd64\"]\n  meta \x7b\n    enabled = true\n  \x7d\n\x7d\n".data

/-- One rendered provider block (with comments). -/
def renderProvider (p : ProviderEntry) : List Char :=
  rpA ++ p.src.data ++ rpB ++ p.ver.data ++ rpC ++ p.cons.data ++ rpD

/-- A rendered lock file: the concatenation of its provider blocks. -/
def renderTerraformLockFile (ps : List ProviderEntry) : String :=
  ((ps.map renderProvider).flatten).asString

/-- The provider record the parser is expected to produce for a
rendered block. -/
def expectedProvider (p : ProviderEntry) : TerraformProvider :=
  ⟨p.src, p.ver, some p.cons, ["h1:abc="], some ["linux_amd64"]⟩

/-! #### Generic scanning lemmas -/

theorem takeWhile_append_stop {P : Char → Bool} {xs : List Char} (hxs : ∀ c ∈ xs, P c = true)
    {y : Char} (hy : P y = false) (ys : List Char) :
    (xs ++ y :: ys).takeWhile P = xs := by
  induction xs with
  | nil => simp [List.takeWhile_cons, hy]
  | cons a t ih =>
    have ha : P a = true := hxs a (List.mem_cons_self a t)
    simp only [List.cons_append, List.takeWhile_cons, ha, if_true]
    rw [ih (fun c hc => hxs c (List.mem_cons_of_mem a hc))]

theorem dropWhile_append_stop {P : Char → Bool} {xs : List Char} (hxs : ∀ c ∈ xs, P c = true)
    {y : Char} (hy : P y = false) (ys : List Char) :
    (xs ++ y :: ys).dropWhile P = y :: ys := by
  induction xs with
  | nil => simp [List.dropWhile_cons, hy]
  | cons a t ih =>
    have ha : P a = true := hxs a (List.mem_cons_self a t)
    simp only [List.cons_append, List.dropWhile_cons, ha, if_true]
    exact ih (fun c hc => hxs c (List.mem_cons_of_mem a hc))

theorem expectLit_append_self (pat rest : List Char) :
    expectLit pat (pat ++ rest) = some rest := by
  induction pat with
  | nil => rfl
  | cons c t ih => simp [expectLit, ih]

theorem srcCharOK_spec {c : Char} (h : srcCharOK c = true) :
    c ≠ '"' ∧ c ≠ '#' ∧ c ≠ '.' ∧ c ≠ '\n' ∧ c ≠ '\x7b' ∧ c ≠ '\x7d' := by
  refine ⟨?_, ?_, ?_, ?_, ?_, ?_⟩ <;> (intro hc; subst hc; exact absurd h (by decide))

theorem versionCharOK_spec {c : Char} (h : versionCharOK c = true) :
    c ≠ '"' ∧ c ≠ '#' ∧ c ≠ '\n' ∧ c ≠ '\x7b' ∧ c ≠ '\x7d' ∧ c ≠ 'p' ∧ c ≠ 'v' ∧
      c ≠ 'c' ∧ c ≠ 'h' := by
  refine ⟨?_, ?_, ?_, ?_, ?_, ?_, ?_, ?_, ?_⟩ <;> (intro hc; subst hc; exact absurd h (by decide))

/-! #### Comment stripping on rendered content -/

theorem stripCommentsGo_false_hash (t : List Char) :
    stripCommentsGo false ('#' :: t) = stripCommentsGo true t := by
  simp [stripCommentsGo]

theorem stripCommentsGo_false_char {c : Char} (h : c ≠ '#') (t : List Char) :
    stripCommentsGo false (c :: t) = c :: stripCommentsGo false t := by
  simp [stripCommentsGo, h]

theorem stripCommentsGo_true_nl (t : List Char) :
    stripCommentsGo true ('\n' :: t) = '\n' :: stripCommentsGo false t := by
  simp [stripCommentsGo]

theorem stripCommentsGo_true_char {c : Char} (h : c ≠ '\n') (t : List Char) :
    stripCommentsGo true (c :: t) = stripCommentsGo true t := by
  simp [stripCommentsGo, h]

theorem stripCommentsGo_false_append {xs : List Char} (h : ∀ c ∈ xs, c ≠ '#')
    (ys : List Char) :
    stripCommentsGo false (xs ++ ys) = xs ++ stripCommentsGo false ys := by
  induction xs with
  | nil => rfl
  | cons a t ih =>
    rw [List.cons_append, stripCommentsGo_false_char (h a (List.mem_cons_self a t)),
      ih (fun c hc => h c (List.mem_cons_of_mem a hc))]
    rfl

theorem stripCommentsGo_true_append {xs : List Char} (h : ∀ c ∈ xs, c ≠ '\n')
    (ys : List Char) :
    stripCommentsGo true (xs ++ '\n' :: ys) = '\n' :: stripCommentsGo false ys := by
  induction xs with
  | nil => exact stripCommentsGo_true_nl ys
  | cons a t ih =>
    rw [List.cons_append, stripCommentsGo_true_char (h a (List.mem_cons_self a t)),
      ih (fun c hc => h c (List.mem_cons_of_mem a hc))]

theorem strip_renderProvider {p : ProviderEntry} (hp : ProviderEntryWF p) (rest : List Char) :
    stripCommentsGo false (renderProvider p ++ rest) =
      '\n' :: providerCore p ++ stripCommentsGo false rest := by
  obtain ⟨-, hsrc, -, hver, -, hcons⟩ := hp
  have hsrc' : ∀ c ∈ p.src.data, c ≠ '#' := fun c hc => (srcCharOK_spec (hsrc c hc)).2.1
  have hver' : ∀ c ∈ p.ver.data, c ≠ '#' := fun c hc => (versionCharOK_spec (hver c hc)).2.1
  have hcons' : ∀ c ∈ p.cons.data, c ≠ '#' := fun c hc => (versionCharOK_spec (hcons c hc)).2.1
  rw [renderProvider]
  simp only [List.append_assoc]
  simp [stripCommentsGo, rpA, rpB, rpC, rpD]
  rw [stripCommentsGo_false_append hsrc']
  simp [stripCommentsGo]
  rw [stripCommentsGo_false_append hver']
  simp [stripCommentsGo]
  rw [stripCommentsGo_false_append hcons']
  simp [stripCommentsGo, providerCore, bodyChars, bcV, bcC, bcT, rpTailB]

/-! new development below -/

theorem asString_data (s : String) : s.data.asString = s := rfl

theorem expectLit_head_ne {k c : Char} (h : c ≠ k) (kt t : List Char) :
    expectLit (k :: kt) (c :: t) = none := by
  simp [expectLit, h]

theorem tryProviderAt_head_ne {c : Char} (h : c ≠ 'p') (t : List Char) :
    tryProviderAt (c :: t) = none := by
  rw [tryProviderAt, show ("provider").data = 'p' :: "rovider".data from rfl,
    expectLit_head_ne h]

theorem findProviderFrom_skip {xs : List Char} (h : ∀ c ∈ xs, c ≠ 'p') (ys : List Char) :
    findProviderFrom (xs ++ ys) = findProviderFrom ys := by
  induction xs with
  | nil => rfl
  | cons a t ih =>
    rw [List.cons_append, findProviderFrom,
      tryProviderAt_head_ne (h a (List.mem_cons_self a t)),
      ih (fun c hc => h c (List.mem_cons_of_mem a hc))]

theorem expectWsPlus_space_quote (t : List Char) :
    expectWsPlus (' ' :: '"' :: t) = some ('"' :: t) := rfl

theorem expectChar_self (c : Char) (t : List Char) : expectChar c (c :: t) = some t := by
  simp [expectChar]

theorem dropWhile_space_brace (t : List Char) :
    (' ' :: '\x7b' :: t).dropWhile Char.isWhitespace = '\x7b' :: t := rfl

theorem tryProviderAt_core {p : ProviderEntry} (hp : ProviderEntryWF p) (rest : List Char) :
    tryProviderAt (providerCore p ++ rest) = some (p.src.data, bodyChars p, rpTailB ++ rest) := by
  obtain ⟨hne, hsrc, -, hver, -, hcons⟩ := hp
  have hsl : p.src.data.isEmpty = false := by
    cases hd : p.src.data with
    | nil =>
      exfalso
      apply hne
      have := congrArg List.asString hd
      rwa [asString_data] at this
    | cons a t => rfl
  have hq : ∀ c ∈ p.src.data, (fun ch => decide (ch ≠ '"')) c = true :=
    fun c hc => decide_eq_true (srcCharOK_spec (hsrc c hc)).1
  have hbV : ∀ c ∈ bcV, c ≠ '\x7d' := by decide
  have hbC : ∀ c ∈ bcC, c ≠ '\x7d' := by decide
  have hbT : ∀ c ∈ bcT, c ≠ '\x7d' := by decide
  have hb : ∀ c ∈ bodyChars p, (fun ch => decide (ch ≠ '\x7d')) c = true := by
    intro c hc
    apply decide_eq_true
    simp only [bodyChars, List.mem_append] at hc
    rcases hc with ((((h | h) | h) | h) | h)
    · exact hbV c h
    · exact (versionCharOK_spec (hver c h)).2.2.2.2.1
    · exact hbC c h
    · exact (versionCharOK_spec (hcons c h)).2.2.2.2.1
    · exact hbT c h
  rw [providerCore]
  simp only [List.append_assoc, List.cons_append, List.nil_append]
  simp only [tryProviderAt, expectLit, expectWsPlus_space_quote, expectChar_self,
    takeUntilChar, reduceIte]
  rw [takeWhile_append_stop hq (by decide), dropWhile_append_stop hq (by decide)]
  simp only [hsl, Bool.false_eq_true, if_false, expectChar_self, dropWhile_space_brace]
  rw [takeWhile_append_stop hb (by decide), dropWhile_append_stop hb (by decide)]
  simp only [expectChar_self]

theorem dropWhile_space_eq (t : List Char) :
    (' ' :: '=' :: t).dropWhile Char.isWhitespace = '=' :: t := rfl

theorem dropWhile_space_quote (t : List Char) :
    (' ' :: '"' :: t).dropWhile Char.isWhitespace = '"' :: t := rfl

theorem dropWhile_space_bracket (t : List Char) :
    (' ' :: '[' :: t).dropWhile Char.isWhitespace = '[' :: t := rfl

theorem tryKeyStringAt_head_ne {k c : Char} (h : c ≠ k) (kt t : List Char) :
    tryKeyStringAt (k :: kt) (c :: t) = none := by
  rw [tryKeyStringAt, expectLit_head_ne h]

theorem findKeyString_cons_ne {k c : Char} (h : c ≠ k) (kt t : List Char) :
    findKeyString (k :: kt) (c :: t) = findKeyString (k :: kt) t := by
  simp only [findKeyString, tryKeyStringAt_head_ne h]

theorem findKeyString_skip {k : Char} {kt xs : List Char} (h : ∀ c ∈ xs, c ≠ k)
    (ys : List Char) :
    findKeyString (k :: kt) (xs ++ ys) = findKeyString (k :: kt) ys := by
  induction xs with
  | nil => rfl
  | cons a t ih =>
    rw [List.cons_append, findKeyString_cons_ne (h a (List.mem_cons_self a t)),
      ih (fun c hc => h c (List.mem_cons_of_mem a hc))]

theorem findKeyString_of_try {kw l : List Char} {v : List Char}
    (h : tryKeyStringAt kw l = some v) (hl : l ≠ []) :
    findKeyString kw l = some v := by
  cases l with
  | nil => exact absurd rfl hl
  | cons c t => simp only [findKeyString, h]

theorem tryKeyStringAt_exact (kw v zs : List Char) (hv : v.isEmpty = false)
    (hq : ∀ c ∈ v, (fun ch => decide (ch ≠ '"')) c = true) :
    tryKeyStringAt kw (kw ++ ' ' :: '=' :: ' ' :: '"' :: (v ++ '"' :: zs)) = some v := by
  simp only [tryKeyStringAt, expectLit_append_self, dropWhile_space_eq, expectChar_self,
    dropWhile_space_quote, takeUntilChar]
  rw [takeWhile_append_stop hq (by decide), dropWhile_append_stop hq (by decide)]
  simp only [hv, Bool.false_eq_true, if_false, expectChar_self]

theorem tryKeyListAt_head_ne {k c : Char} (h : c ≠ k) (kt t : List Char) :
    tryKeyListAt (k :: kt) (c :: t) = none := by
  rw [tryKeyListAt, expectLit_head_ne h]

theorem findKeyList_cons_ne {k c : Char} (h : c ≠ k) (kt t : List Char) :
    findKeyList (k :: kt) (c :: t) = findKeyList (k :: kt) t := by
  simp only [findKeyList, tryKeyListAt_head_ne h]

theorem findKeyList_skip {k : Char} {kt xs : List Char} (h : ∀ c ∈ xs, c ≠ k)
    (ys : List Char) :
    findKeyList (k :: kt) (xs ++ ys) = findKeyList (k :: kt) ys := by
  induction xs with
  | nil => rfl
  | cons a t ih =>
    rw [List.cons_append, findKeyList_cons_ne (h a (List.mem_cons_self a t)),
      ih (fun c hc => h c (List.mem_cons_of_mem a hc))]

theorem findKeyList_of_try {kw l : List Char} {v : List Char}
    (h : tryKeyListAt kw l = some v) (hl : l ≠ []) :
    findKeyList kw l = some v := by
  cases l with
  | nil => exact absurd rfl hl
  | cons c t => simp only [findKeyList, h]

theorem tryKeyListAt_exact (kw inner zs : List Char)
    (hin : ∀ c ∈ inner, (fun ch => decide (ch ≠ ']')) c = true) :
    tryKeyListAt kw (kw ++ ' ' :: '=' :: ' ' :: '[' :: (inner ++ ']' :: zs)) = some inner := by
  simp only [tryKeyListAt, expectLit_append_self, dropWhile_space_eq, expectChar_self,
    dropWhile_space_bracket, takeUntilChar]
  rw [takeWhile_append_stop hin (by decide), dropWhile_append_stop hin (by decide)]
  simp only [expectChar_self]

/-! decompositions of the rendered body -/

theorem body_decomp_version (p : ProviderEntry) :
    bodyChars p = "\n  ".data ++ ("version".data ++ ' ' :: '=' :: ' ' :: '"' ::
      (p.ver.data ++ '"' ::
        (" \n  constraints = \"".data ++ (p.cons.data ++ bcT)))) := by
  simp [bodyChars, bcV, bcC]

theorem body_decomp_constraints (p : ProviderEntry) :
    bodyChars p = (bcV ++ p.ver.data ++ "\" \n  ".data) ++
      ("constraints".data ++ ' ' :: '=' :: ' ' :: '"' ::
        (p.cons.data ++ '"' ::
          ("\n  hashes = [\n    \"h1:abc=\",\n  ]\n  platforms = [\"linux_amd64\"]\n  meta \x7b\n    enabled = true\n  ".data))) := by
  simp [bodyChars, bcV, bcC, bcT]

theorem body_decomp_hashes (p : ProviderEntry) :
    bodyChars p = (bcV ++ p.ver.data ++ bcC ++ p.cons.data ++ "\"\n  ".data) ++
      ("hashes".data ++ ' ' :: '=' :: ' ' :: '[' ::
        ("\n    \"h1:abc=\",\n  ".data ++ ']' ::
          ("\n  platforms = [\"linux_amd64\"]\n  meta \x7b\n    enabled = true\n  ".data))) := by
  simp [bodyChars, bcV, bcC, bcT]

theorem body_decomp_platforms (p : ProviderEntry) :
    bodyChars p = (bcV ++ p.ver.data ++ bcC ++ p.cons.data ++
        "\"\n  hashes = [\n    \"h1:abc=\",\n  ]\n  ".data) ++
      ("platforms".data ++ ' ' :: '=' :: ' ' :: '[' ::
        ("\"linux_amd64\"".data ++ ']' ::
          ("\n  meta \x7b\n    enabled = true\n  ".data))) := by
  simp [bodyChars, bcV, bcC, bcT]

theorem data_ne_nil {s : String} (h : s ≠ "") : s.data.isEmpty = false := by
  cases hd : s.data with
  | nil =>
    exfalso
    apply h
    have := congrArg List.asString hd
    rwa [asString_data] at this
  | cons a t => rfl

theorem findVersion_body {p : ProviderEntry} (hp : ProviderEntryWF p) :
    findKeyString "version".data (bodyChars p) = some p.ver.data := by
  obtain ⟨-, -, hvne, hver, -, -⟩ := hp
  rw [body_decomp_version, show ("version").data = 'v' :: "ersion".data from rfl,
    findKeyString_skip (by decide)]
  refine findKeyString_of_try ?_ (by simp)
  exact tryKeyStringAt_exact _ _ _ (data_ne_nil hvne)
    (fun c hc => decide_eq_true (versionCharOK_spec (hver c hc)).1)

theorem findConstraints_body {p : ProviderEntry} (hp : ProviderEntryWF p) :
    findKeyString "constraints".data (bodyChars p) = some p.cons.data := by
  obtain ⟨-, -, -, hver, hcne, hcons⟩ := hp
  have hskip : ∀ c ∈ bcV ++ p.ver.data ++ "\" \n  ".data, c ≠ 'c' := by
    intro c hc
    simp only [List.mem_append] at hc
    rcases hc with (h | h) | h
    · revert c
      decide
    · exact (versionCharOK_spec (hver c h)).2.2.2.2.2.2.2.1
    · revert c
      decide
  rw [body_decomp_constraints, show ("constraints").data = 'c' :: "onstraints".data from rfl,
    findKeyString_skip hskip]
  refine findKeyString_of_try ?_ (by simp)
  exact tryKeyStringAt_exact _ _ _ (data_ne_nil hcne)
    (fun c hc => decide_eq_true (versionCharOK_spec (hcons c hc)).1)

theorem findHashes_body {p : ProviderEntry} (hp : ProviderEntryWF p) :
    findKeyList "hashes".data (bodyChars p) = some ("\n    \"h1:abc=\",\n  ".data) := by
  obtain ⟨-, -, -, hver, -, hcons⟩ := hp
  have hskip : ∀ c ∈ bcV ++ p.ver.data ++ bcC ++ p.cons.data ++ "\"\n  ".data, c ≠ 'h' := by
    intro c hc
    simp only [List.mem_append] at hc
    rcases hc with (((h | h) | h) | h) | h
    · revert c
      decide
    · exact (versionCharOK_spec (hver c h)).2.2.2.2.2.2.2.2
    · revert c
      decide
    · exact (versionCharOK_spec (hcons c h)).2.2.2.2.2.2.2.2
    · revert c
      decide
  rw [body_decomp_hashes, show ("hashes").data = 'h' :: "ashes".data from rfl,
    findKeyList_skip hskip]
  refine findKeyList_of_try ?_ (by simp)
  exact tryKeyListAt_exact _ _ _ (by decide)

theorem findPlatforms_body {p : ProviderEntry} (hp : ProviderEntryWF p) :
    findKeyList "platforms".data (bodyChars p) = some ("\"linux_amd64\"".data) := by
  obtain ⟨-, -, -, hver, -, hcons⟩ := hp
  have hskip : ∀ c ∈ bcV ++ p.ver.data ++ bcC ++ p.cons.data ++
      "\"\n  hashes = [\n    \"h1:abc=\",\n  ]\n  ".data, c ≠ 'p' := by
    intro c hc
    simp only [List.mem_append] at hc
    rcases hc with (((h | h) | h) | h) | h
    · revert c
      decide
    · exact (versionCharOK_spec (hver c h)).2.2.2.2.2.1
    · revert c
      decide
    · exact (versionCharOK_spec (hcons c h)).2.2.2.2.2.1
    · revert c
      decide
  rw [body_decomp_platforms, show ("platforms").data = 'p' :: "latforms".data from rfl,
    findKeyList_skip hskip]
  refine findKeyList_of_try ?_ (by simp)
  exact tryKeyListAt_exact _ _ _ (by decide)

/-! hostStrip is the identity on dot-free sources -/

theorem hostChainEnd_nodot {l : List Char} (h : ∀ c ∈ l, c ≠ '.') (w : Bool) :
    hostChainEnd l false w = none := by
  induction l generalizing w with
  | nil => rfl
  | cons c t ih =>
    simp only [hostChainEnd]
    by_cases h1 : isWordHyphen c = true
    · simp only [h1, if_true]
      exact ih (fun x hx => h x (List.mem_cons_of_mem c hx)) _
    · simp only [h1, if_false]
      by_cases h2 : c = '.'
      · exact absurd h2 (h c (List.mem_cons_self c t))
      · simp only [h2, if_false]
        by_cases h3 : c = '/'
        · simp [h3]
        · simp [h3]

theorem hostStrip_nodot {l : List Char} (h : ∀ c ∈ l, c ≠ '.') : hostStrip l = l := by
  rw [hostStrip]
  induction l with
  | nil => rfl
  | cons c t ih =>
    simp only [hostStripGo, hostChainEnd_nodot h]
    rw [ih (fun x hx => h x (List.mem_cons_of_mem c hx))]

/-! extraction from a rendered block -/

theorem buildProvider_core {p : ProviderEntry} (hp : ProviderEntryWF p) :
    buildProvider p.src.data (bodyChars p) = expectedProvider p := by
  have hsrc := hp.2.1
  rw [buildProvider, findVersion_body hp, findConstraints_body hp, findHashes_body hp,
    findPlatforms_body hp,
    hostStrip_nodot (fun c hc => (srcCharOK_spec (hsrc c hc)).2.2.1)]
  simp only [Option.map_some', Option.getD_some, asString_data]
  rw [show scanQuoted ("\n    \"h1:abc=\",\n  ".data) = ["h1:abc="] from by decide,
    show scanQuoted ("\"linux_amd64\"".data) = ["linux_amd64"] from by decide]
  rfl

/-! the exec loop on rendered content -/

theorem findProviderFrom_of_try {l : List Char} {r : List Char × List Char × List Char}
    (h : tryProviderAt l = some r) (hl : l ≠ []) :
    findProviderFrom l = some r := by
  cases l with
  | nil => exact absurd rfl hl
  | cons c t => simp only [findProviderFrom, h]

theorem findProviderFrom_at {p : ProviderEntry} (hp : ProviderEntryWF p) (R : List Char) :
    findProviderFrom ('\n' :: (providerCore p ++ R)) =
      some (p.src.data, bodyChars p, rpTailB ++ R) := by
  rw [show ('\n' :: (providerCore p ++ R)) = ['\n'] ++ (providerCore p ++ R) from rfl,
    findProviderFrom_skip (by decide)]
  refine findProviderFrom_of_try (tryProviderAt_core hp R) ?_
  intro hh
  simpa [providerCore] using congrArg List.length hh

theorem parseLoop_none {l : List Char} {acc : List (String × TerraformProvider)}
    (h : findProviderFrom l = none) : parseProvidersLoop l acc = acc := by
  rw [parseProvidersLoop]
  split
  · rfl
  · next src body rest hf =>
    rw [h] at hf
    cases hf

theorem parseLoop_some {l : List Char} {acc : List (String × TerraformProvider)}
    {src body rest : List Char} (h : findProviderFrom l = some (src, body, rest)) :
    parseProvidersLoop l acc =
      parseProvidersLoop rest
        (setProvider acc (buildProvider src body).source (buildProvider src body)) := by
  rw [parseProvidersLoop]
  split
  · next hf =>
    rw [h] at hf
    cases hf
  · next s b r hf =>
    rw [h] at hf
    simp only [Option.some.injEq, Prod.mk.injEq] at hf
    obtain ⟨rfl, rfl, rfl⟩ := hf
    rfl

theorem parseLoop_skip {xs : List Char} (h : ∀ c ∈ xs, c ≠ 'p') (ys : List Char)
    (acc : List (String × TerraformProvider)) :
    parseProvidersLoop (xs ++ ys) acc = parseProvidersLoop ys acc := by
  have hs := findProviderFrom_skip h ys
  cases hf : findProviderFrom ys with
  | none => rw [parseLoop_none (hs.trans hf), parseLoop_none hf]
  | some r =>
    obtain ⟨src, body, rest⟩ := r
    rw [parseLoop_some (hs.trans hf), parseLoop_some hf]

theorem strip_render_all (ps : List ProviderEntry) (hwf : ∀ p ∈ ps, ProviderEntryWF p) :
    stripComments ((ps.map renderProvider).flatten) =
      (ps.map (fun p => '\n' :: providerCore p)).flatten := by
  induction ps with
  | nil => rfl
  | cons p t ih =>
    have ih' := ih (fun q hq => hwf q (List.mem_cons_of_mem p hq))
    rw [stripComments] at ih'
    rw [List.map_cons, List.flatten_cons, stripComments,
      strip_renderProvider (hwf p (List.mem_cons_self p t)), ih']
    simp

theorem parseLoop_render (ps : List ProviderEntry) (hwf : ∀ p ∈ ps, ProviderEntryWF p)
    (acc : List (String × TerraformProvider)) :
    parseProvidersLoop ((ps.map (fun p => '\n' :: providerCore p)).flatten) acc =
      ps.foldl (fun m p => setProvider m p.src (expectedProvider p)) acc := by
  induction ps generalizing acc with
  | nil => exact parseLoop_none rfl
  | cons p t ih =>
    rw [List.map_cons, List.flatten_cons, List.cons_append,
      parseLoop_some (findProviderFrom_at (hwf p (List.mem_cons_self p t)) _),
      buildProvider_core (hwf p (List.mem_cons_self p t)),
      show (expectedProvider p).source = p.src from rfl, rpTailB,
      parseLoop_skip (by decide),
      ih (fun q hq => hwf q (List.mem_cons_of_mem p hq))]
    rfl

theorem lookupProvider_setProvider_self (m : List (String × TerraformProvider)) (k : String)
    (v : TerraformProvider) : lookupProvider (setProvider m k v) k = some v := by
  induction m with
  | nil => simp [setProvider, lookupProvider]
  | cons a t ih =>
    obtain ⟨k', p'⟩ := a
    by_cases h : k' = k
    · simp [setProvider, h, lookupProvider]
    · simp [setProvider, h, lookupProvider, ih]

theorem lookupProvider_setProvider_ne {k k' : String} (h : k' ≠ k)
    (m : List (String × TerraformProvider)) (v : TerraformProvider) :
    lookupProvider (setProvider m k v) k' = lookupProvider m k' := by
  induction m with
  | nil => simp [setProvider, lookupProvider, Ne.symm h]
  | cons a t ih =>
    obtain ⟨a1, a2⟩ := a
    by_cases ha : a1 = k
    · subst ha
      simp [setProvider, lookupProvider, Ne.symm h]
    · simp [setProvider, ha, lookupProvider, ih]

theorem lookup_foldl_not_mem {ps : List ProviderEntry} {k : String}
    (h : ∀ q ∈ ps, q.src ≠ k) (m : List (String × TerraformProvider)) :
    lookupProvider (ps.foldl (fun m p => setProvider m p.src (expectedProvider p)) m) k =
      lookupProvider m k := by
  induction ps generalizing m with
  | nil => rfl
  | cons p t ih =>
    rw [List.foldl_cons, ih (fun q hq => h q (List.mem_cons_of_mem p hq)),
      lookupProvider_setProvider_ne (fun hh => h p (List.mem_cons_self p t) hh.symm)]

theorem lookup_foldl_mem {ps : List ProviderEntry}
    (hdist : ps.Pairwise (fun a b => a.src ≠ b.src)) {p : ProviderEntry} (hmem : p ∈ ps)
    (m : List (String × TerraformProvider)) :
    lookupProvider (ps.foldl (fun m p => setProvider m p.src (expectedProvider p)) m) p.src =
      some (expectedProvider p) := by
  induction ps generalizing m with
  | nil => cases hmem
  | cons q t ih =>
    rw [List.foldl_cons]
    rcases List.mem_cons.mp hmem with rfl | hmem'
    · have hall : ∀ x ∈ t, x.src ≠ p.src :=
        fun x hx => ((List.pairwise_cons.mp hdist).1 x hx).symm
      rw [lookup_foldl_not_mem hall, lookupProvider_setProvider_self]
    · exact ih (List.pairwise_cons.mp hdist).2 hmem' _

/-- C8: `parseTerraformLockFile` strips comment text (from a `#` to the end
of its line) before matching provider blocks, and for every rendered lock
file of the stated grammar -- any list of provider blocks with distinct
well-formed sources and well-formed version/constraints strings, each block
carrying a comment line, a trailing comment, `hashes` and `platforms` lists
and a nested brace-delimited sub-block -- it still extracts every
provider's source, version and constraints (together with the hashes and
platforms lists). -/
theorem C8_lock_file_parsing_with_comments_and_nested_braces :
    ∀ ps : List ProviderEntry, (∀ p ∈ ps, ProviderEntryWF p) →
      ps.Pairwise (fun a b => a.src ≠ b.src) →
      ∀ p ∈ ps,
        lookupProvider (parseTerraformLockFile (renderTerraformLockFile ps)).providers p.src =
          some (expectedProvider p) := by
  intro ps hwf hdist p hp
  have hpr : (parseTerraformLockFile (renderTerraformLockFile ps)).providers =
      parseProvidersLoop (stripComments ((ps.map renderProvider).flatten)) [] := rfl
  rw [hpr, strip_render_all ps hwf, parseLoop_render ps hwf]
  exact lookup_foldl_mem hdist hp []

/-- Witness for C8: a two-block rendered lock file, with the second
provider's record looked up. -/
theorem C8_lock_file_parsing_witness :
    lookupProvider (parseTerraformLockFile (renderTerraformLockFile
        [⟨"hashicorp/aws", "5.0.1", ">= 5.0"⟩,
         ⟨"hashicorp/null", "3.2.1", "~> 3.0"⟩])).providers "hashicorp/null" =
      some ⟨"hashicorp/null", "3.2.1", some "~> 3.0", ["h1:abc="], some ["linux_amd64"]⟩ :=
  C8_lock_file_parsing_with_comments_and_nested_braces
    [⟨"hashicorp/aws", "5.0.1", ">= 5.0"⟩, ⟨"hashicorp/null", "3.2.1", "~> 3.0"⟩]
    (by
      intro p hp
      fin_cases hp <;>
        exact ⟨by decide, by decide, by decide, by decide, by decide, by decide⟩)
    (by decide)
    ⟨"hashicorp/null", "3.2.1", "~> 3.0"⟩ (by decide)


end TfDocs
